import Mathlib

/-!
Verification of the WebTopics protocol core against its specification.

The development shallowly embeds the TypeScript sources:
* utils/Compare.ts : the structural diff/merge engine (valueType, primitiveEqual,
  diff, mergeDiff, recursiveDelete, recursiveMerge);
* BaseClient.ts : channel wire-name derivation, the topic synchronization state
  machine (onReceiveTopicMessage, pub, sub, getTopicSync), and the service RPC
  engine (req, onReceiveServiceMessage, onReceiveServiceResponseMessage);
* Server.ts : the identity handshake of the relay layer.

JSON values are modelled by the inductive type JValue.  JavaScript objects are
insertion-ordered string-keyed maps and are modelled as association lists; the
well-formedness predicate wfJ states that every object has pairwise distinct
keys, which every value reachable from JavaScript satisfies.  Deep equality
(lodash isEqual) is modelled by jeq, which ignores object key order.
-/

set_option maxHeartbeats 1000000
set_option linter.unnecessarySeqFocus false

namespace WebTopics

/-- A JSON value: the payload type of topics, service requests and responses.
JavaScript numbers only ever meet the engine through strict equality, so they
are embedded as integers with decidable equality. -/
inductive JValue : Type where
  | str : String → JValue
  | num : Int → JValue
  | boolean : Bool → JValue
  | null : JValue
  | arr : List JValue → JValue
  | obj : List (String × JValue) → JValue
  deriving Repr

/-- JavaScript property read obj[k] on an object: the value of the first
binding of key k, if any. -/
def lookupKV {α : Type} (k : String) : List (String × α) → Option α
  | [] => none
  | (k0, v) :: rest => if k0 = k then some v else lookupKV k rest

/-- JavaScript property write obj[k] = v (also Map.set): replaces the value of
an existing key in place, otherwise appends the new binding. -/
def setKV {α : Type} (k : String) (v : α) : List (String × α) → List (String × α)
  | [] => [(k, v)]
  | (k0, v0) :: rest => if k0 = k then (k0, v) :: rest else (k0, v0) :: setKV k v rest

/-- The keys of an object, in binding order (Object.keys). -/
def keysOf {α : Type} (l : List (String × α)) : List String :=
  l.map Prod.fst

theorem sizeOf_lookupKV (k : String) (l : List (String × JValue)) :
    sizeOf (lookupKV k l) ≤ sizeOf l := by
  induction l with
  | nil => simp [lookupKV]
  | cons hd tl ih =>
      obtain ⟨k0, v⟩ := hd
      simp only [lookupKV]
      split
      · simp <;> omega
      · have : sizeOf tl ≤ sizeOf ((k0, v) :: tl) := by simp
        omega

theorem sizeOf_snd_lt_of_mem {k : String} {v : JValue} {l : List (String × JValue)}
    (h : (k, v) ∈ l) : sizeOf v < sizeOf l := by
  induction l with
  | nil => simp at h
  | cons hd tl ih =>
      rcases List.mem_cons.mp h with h1 | h2
      · subst h1; simp <;> omega
      · have := ih h2
        have : sizeOf tl < sizeOf (hd :: tl) := by simp
        omega

theorem sizeOf_mem_lt {v : JValue} {l : List JValue} (h : v ∈ l) :
    sizeOf v < sizeOf l := by
  induction l with
  | nil => simp at h
  | cons hd tl ih =>
      rcases List.mem_cons.mp h with h1 | h2
      · subst h1; simp <;> omega
      · have := ih h2
        have : sizeOf tl < sizeOf (hd :: tl) := by simp
        omega

/-- One direction of object comparison used by deep equality: every key bound
in bs is also bound in as. -/
def keysCovered (bs as : List (String × JValue)) : Bool :=
  bs.all (fun kv => (lookupKV kv.1 as).isSome)

mutual

/-- Embedding of lodash isEqual deep equality on JSON values: primitives
compare componentwise, arrays compare elementwise, objects compare as
key-value maps, ignoring binding order. -/
def jeq : JValue → JValue → Bool
  | .str a, .str b => a == b
  | .num a, .num b => a == b
  | .boolean a, .boolean b => a == b
  | .null, .null => true
  | .arr as, .arr bs => jeqList as bs
  | .obj as, .obj bs => jeqEntries as bs && keysCovered bs as
  | _, _ => false
termination_by a _ => (sizeOf a, 0)

/-- Elementwise deep equality of arrays. -/
def jeqList : List JValue → List JValue → Bool
  | [], [] => true
  | a :: as, b :: bs => jeq a b && jeqList as bs
  | _, _ => false
termination_by as _ => (sizeOf as, 1)

/-- Every binding of the first object is matched, key for key, by a deeply
equal binding of the second. -/
def jeqEntries : List (String × JValue) → List (String × JValue) → Bool
  | [], _ => true
  | (k, v) :: rest, bs =>
      (match lookupKV k bs with
       | some w => jeq v w
       | none => false) && jeqEntries rest bs
termination_by as _ => (sizeOf as, 1)

end

/-! ## The diff/merge engine, from utils/Compare.ts

A JavaScript variable of JSON type is either a JSON value or undefined; it is
embedded as Option JValue, with none playing undefined.  A thrown exception is
embedded as the none of an outer Option layer. -/

/-- The classification used by Compare.ts (function valueType): arrays, null,
strings, numbers and booleans are primitive; objects are object; undefined is
undef.  The source throws on any other input, which the embedding has none of. -/
inductive VType : Type where
  | primitive : VType
  | object : VType
  | undef : VType
  deriving Repr, DecidableEq

/-- Embedding of valueType from Compare.ts. -/
def valueType : Option JValue → VType
  | none => .undef
  | some (.obj _) => .object
  | some _ => .primitive

/-- JavaScript strict equality a === b restricted to the operands primitiveEqual
passes to it: two non-array primitives are strictly equal when they are the
same literal; operands of different primitive constructors are not.  (On two
distinct array or object instances === would be reference comparison, which
primitiveEqual never reaches: arrays are routed to isEqual and objects are
never passed.) -/
def strictEq : JValue → JValue → Bool
  | .str a, .str b => a == b
  | .num a, .num b => a == b
  | .boolean a, .boolean b => a == b
  | .null, .null => true
  | _, _ => false

/-- Embedding of primitiveEqual from Compare.ts: two arrays are compared with
lodash isEqual (deep equality), anything else with strict equality. -/
def primitiveEqual (a b : JValue) : Bool :=
  match a, b with
  | .arr as, .arr bs => jeq (.arr as) (.arr bs)
  | _, _ => strictEq a b

/-- Embedding of DiffResult from Compare.ts: the optional modified overlay and
the optional null-shaped deletion tree.  A missing field (none) is distinct
from an empty object, and that distinction is load-bearing for the protocol. -/
structure DiffRes : Type where
  modified : Option JValue
  deleted : Option JValue
  deriving Repr

/-- Insertion-order deduplication with the semantics of a JavaScript Set: the
first occurrence of each element is kept, in order.  Used for the union of the
key sets of the two objects being diffed. -/
def dedupKeys (seen : List String) : List String → List String
  | [] => []
  | k :: rest =>
      if seen.contains k then dedupKeys seen rest
      else k :: dedupKeys (k :: seen) rest

theorem natLex_of_lt {a1 a2 b1 b2 : Nat} (h : a1 < a2) :
    Prod.Lex (fun x y : Nat => x < y) (fun x y : Nat => x < y) (a1, b1) (a2, b2) :=
  Prod.Lex.left _ _ h

theorem natLex_of_le_of_lt {a1 a2 b1 b2 : Nat} (h1 : a1 ≤ a2) (h2 : b1 < b2) :
    Prod.Lex (fun x y : Nat => x < y) (fun x y : Nat => x < y) (a1, b1) (a2, b2) := by
  rcases Nat.lt_or_ge a1 a2 with h | h
  · exact Prod.Lex.left _ _ h
  · have heq : a1 = a2 := Nat.le_antisymm h1 h
    subst heq
    exact Prod.Lex.right _ h2

mutual

/-- Embedding of diff from Compare.ts on value-or-undefined arguments.  The
outer Option models exceptions: the source throws when both sides are
undefined, and the embedding returns none there and propagates none out of the
recursion over object keys. -/
def diffV : Option JValue → Option JValue → Option DiffRes
  | none, none => none
  | none, some n => some ⟨some n, none⟩
  | some _, none => some ⟨none, some .null⟩
  | some o, some n =>
      if valueType (some o) ≠ valueType (some n) then
        some ⟨some n, none⟩
      else
        match o, n with
        | .obj os, .obj ns =>
            match diffEntries os ns (dedupKeys [] (keysOf os ++ keysOf ns)) none none with
            | none => none
            | some (mo, dl) => some ⟨mo.map .obj, dl.map .obj⟩
        | o, n =>
            if primitiveEqual o n then some ⟨none, none⟩ else some ⟨some n, none⟩
termination_by ao bo => (sizeOf ao + sizeOf bo, 0)
decreasing_by
  simp_wf
  apply natLex_of_lt
  omega

/-- The loop of diff over the deduplicated union of the two key sets,
accumulating the modified and deleted sub-objects.  An accumulator stays none
until its first entry is attached, mirroring the source initialising each
result object only on demand. -/
def diffEntries (os ns : List (String × JValue)) :
    List String → Option (List (String × JValue)) → Option (List (String × JValue)) →
    Option (Option (List (String × JValue)) × Option (List (String × JValue)))
  | [], accM, accD => some (accM, accD)
  | k :: rest, accM, accD =>
      match diffV (lookupKV k os) (lookupKV k ns) with
      | none => none
      | some sub =>
          let accM1 := match sub.modified with
            | some m => some (accM.getD [] ++ [(k, m)])
            | none => accM
          let accD1 := match sub.deleted with
            | some d => some (accD.getD [] ++ [(k, d)])
            | none => accD
          diffEntries os ns rest accM1 accD1
termination_by keys _ _ => (sizeOf os + sizeOf ns, 1 + keys.length)
decreasing_by
  · simp_wf
    apply natLex_of_le_of_lt
    · have h1 := sizeOf_lookupKV k os
      have h2 := sizeOf_lookupKV k ns
      omega
    · omega
  · simp_wf
    apply natLex_of_le_of_lt
    · omega
    · simp

end

/-- Embedding of diff from Compare.ts at its public type: both arguments are
genuine values, never undefined. -/
def diff (oldValue newValue : JValue) : Option DiffRes :=
  diffV (some oldValue) (some newValue)

/-- The enumerable own properties that a for..of loop over Object.keys visits,
together with the values read back by indexing, for each shape of JavaScript
value: an object yields its bindings, an array and a string yield their
elements under decimal index keys (a character read indexes out a one-character
string), numbers and booleans yield nothing, and null makes Object.keys throw
a TypeError (embedded as none). -/
def jsEntries : JValue → Option (List (String × JValue))
  | .null => none
  | .str s => some (s.data.enum.map (fun ic => (toString ic.1, .str (String.mk [ic.2]))))
  | .num _ => some []
  | .boolean _ => some []
  | .arr vs => some (vs.enum.map (fun iv => (toString iv.1, iv.2)))
  | .obj kvs => some kvs

mutual

/-- Embedding of recursiveDelete from Compare.ts.  The branches follow the
source order: an undefined deleteObject deletes nothing; a null deleteObject
deletes the value outright; any other primitive deleteObject is the
"should not happen" branch and throws (outer none); with an object
deleteObject, an undefined oldValue stays deleted, and otherwise the loop
walks the keys of oldValue, recursing into the deleteObject entry for each key
and dropping keys whose recursive result is undefined. -/
def recursiveDelete : Option JValue → Option JValue → Option (Option JValue)
  | oldValue, none => some oldValue
  | _, some .null => some none
  | _, some (.str _) => none
  | _, some (.num _) => none
  | _, some (.boolean _) => none
  | _, some (.arr _) => none
  | none, some (.obj _) => some none
  | some old, some (.obj dels) =>
      match jsEntries old with
      | none => none
      | some entries => (delEntries dels entries).map (fun l => some (.obj l))
termination_by _ d => (sizeOf d, 0)
decreasing_by
  simp_wf
  apply natLex_of_lt
  omega

/-- The loop of recursiveDelete over the entries of the old value: each key is
recursed with its deleteObject entry, keys whose result is undefined are
dropped, and an exception from a recursive call propagates. -/
def delEntries (dels : List (String × JValue)) :
    List (String × JValue) → Option (List (String × JValue))
  | [] => some []
  | (k, v) :: rest =>
      match recursiveDelete (some v) (lookupKV k dels) with
      | none => none
      | some r =>
          match delEntries dels rest with
          | none => none
          | some tail =>
              match r with
              | some v1 => some ((k, v1) :: tail)
              | none => some tail
termination_by entries => (sizeOf dels + 1, 1 + entries.length)
decreasing_by
  · simp_wf
    apply natLex_of_lt
    have := sizeOf_lookupKV k dels
    omega
  · simp_wf
    apply natLex_of_le_of_lt
    · omega
    · simp

end

mutual

/-- Embedding of recursiveMerge from Compare.ts for a present mergeObject.
When the two classifications differ, a defined old value wins and an undefined
one is overwritten by the merge object; when both are primitive the merge
object wins; when both are objects the old object is deep-copied and each key
of the merge object is overlaid recursively (the recursion reading the old
value of that key).  The mergeObject-undefined case of the source is handled
by the wrapper recursiveMerge below. -/
def recursiveMergeV : Option JValue → JValue → JValue
  | none, m => m
  | some (.obj os), .obj ms => .obj (mergeEntries os os ms)
  | some o, m =>
      if valueType (some o) ≠ valueType (some m) then o
      else m
termination_by _ m => (sizeOf m, 0)
decreasing_by
  simp_wf
  apply natLex_of_lt
  omega

/-- The loop of recursiveMerge over the keys of the merge object: starting
from the deep copy of the old object, each merge entry overwrites (or appends)
its key with the recursive merge of the old value at that key. -/
def mergeEntries (os : List (String × JValue)) :
    List (String × JValue) → List (String × JValue) → List (String × JValue)
  | acc, [] => acc
  | acc, (k, v) :: rest =>
      mergeEntries os (setKV k (recursiveMergeV (lookupKV k os) v) acc) rest
termination_by _ ms => (sizeOf ms, 1)
decreasing_by
  · simp_wf
    apply natLex_of_lt
    omega
  · simp_wf
    apply natLex_of_lt
    omega

end

/-- Embedding of recursiveMerge from Compare.ts at its full type.  For an
undefined mergeObject the source returns oldValue in both of its reachable
branches: with oldValue also undefined the types agree and mergeObject itself
(undefined) is returned, and with oldValue defined the types disagree and
oldValue is returned. -/
def recursiveMerge : Option JValue → Option JValue → Option JValue
  | oldValue, none => oldValue
  | oldValue, some m => some (recursiveMergeV oldValue m)

/-- Embedding of mergeDiff from Compare.ts: apply the deletion tree first,
then overlay the modified tree.  An exception from the deletion pass
propagates (outer none). -/
def mergeDiff (oldValue : Option JValue) (d : DiffRes) : Option (Option JValue) :=
  (recursiveDelete oldValue d.deleted).map (fun del => recursiveMerge del d.modified)

/-- No string occurs twice in the list. -/
def nodupKeys : List String → Bool
  | [] => true
  | k :: rest => !rest.contains k && nodupKeys rest

mutual

/-- Well-formedness of a value as the image of a JavaScript value: every
object, at every depth, binds pairwise distinct keys.  Every value coming out
of the JavaScript runtime satisfies this. -/
def wfJ : JValue → Bool
  | .arr vs => wfList vs
  | .obj kvs => nodupKeys (keysOf kvs) && wfEntries kvs
  | _ => true
termination_by v => (sizeOf v, 0)

/-- All elements of the list are well-formed. -/
def wfList : List JValue → Bool
  | [] => true
  | v :: rest => wfJ v && wfList rest
termination_by l => (sizeOf l, 1)

/-- All values of the bindings are well-formed. -/
def wfEntries : List (String × JValue) → Bool
  | [] => true
  | (_, v) :: rest => wfJ v && wfEntries rest
termination_by l => (sizeOf l, 1)

end

mutual

/-- Kind-compatibility of two values: nowhere on a path shared by both values
does an object on one side face a non-object on the other.  This is exactly
the hypothesis under which the merge of a diff can reconstruct the new value,
because recursiveMerge keeps the old value whenever the classifications of the
existing value and the modified subtree disagree. -/
def compat : JValue → JValue → Bool
  | .obj as, .obj bs => compatEntries as bs
  | .obj _, _ => false
  | _, .obj _ => false
  | _, _ => true
termination_by a _ => (sizeOf a, 0)

/-- Every binding of the first object is kind-compatible with the binding of
the same key in the second object, when one exists. -/
def compatEntries : List (String × JValue) → List (String × JValue) → Bool
  | [], _ => true
  | (k, v) :: rest, bs =>
      (match lookupKV k bs with
       | some w => compat v w
       | none => true) && compatEntries rest bs
termination_by l _ => (sizeOf l, 1)

end

/-! ## Basic lemmas about the association-list operations -/

theorem lookupKV_mem {α : Type} {k : String} {v : α} {l : List (String × α)}
    (h : lookupKV k l = some v) : (k, v) ∈ l := by
  induction l with
  | nil => simp [lookupKV] at h
  | cons hd tl ih =>
      obtain ⟨k0, v0⟩ := hd
      simp only [lookupKV] at h
      split at h
      · rename_i he
        subst he
        cases h
        exact List.mem_cons_self _ _
      · exact List.mem_cons_of_mem _ (ih h)

theorem lookupKV_isSome_of_mem {α : Type} {k : String} {v : α} {l : List (String × α)}
    (h : (k, v) ∈ l) : (lookupKV k l).isSome := by
  induction l with
  | nil => simp at h
  | cons hd tl ih =>
      obtain ⟨k0, v0⟩ := hd
      simp only [lookupKV]
      split
      · simp
      · rename_i hne
        rcases List.mem_cons.mp h with h1 | h2
        · cases h1; simp at hne
        · exact ih h2

theorem lookupKV_isSome_of_mem_keys {α : Type} {k : String} {l : List (String × α)}
    (h : k ∈ keysOf l) : (lookupKV k l).isSome := by
  rcases List.mem_map.mp h with ⟨⟨k0, v⟩, hmem, hk⟩
  cases hk
  exact lookupKV_isSome_of_mem hmem

theorem lookupKV_eq_none_of_not_mem_keys {α : Type} {k : String} {l : List (String × α)}
    (h : k ∉ keysOf l) : lookupKV k l = none := by
  induction l with
  | nil => simp [lookupKV]
  | cons hd tl ih =>
      obtain ⟨k0, v0⟩ := hd
      simp only [keysOf, List.map_cons, List.mem_cons] at h
      push_neg at h
      simp only [lookupKV]
      rw [if_neg (fun hh => h.1 hh.symm)]
      exact ih h.2

theorem mem_keys_of_lookupKV {α : Type} {k : String} {l : List (String × α)}
    (h : (lookupKV k l).isSome) : k ∈ keysOf l := by
  by_contra hn
  rw [lookupKV_eq_none_of_not_mem_keys hn] at h
  simp at h

theorem lookupKV_of_mem_nodup {α : Type} {k : String} {v : α} {l : List (String × α)}
    (hnd : nodupKeys (keysOf l) = true) (h : (k, v) ∈ l) : lookupKV k l = some v := by
  induction l with
  | nil => simp at h
  | cons hd tl ih =>
      obtain ⟨k0, v0⟩ := hd
      simp only [nodupKeys, keysOf, List.map_cons, Bool.and_eq_true] at hnd
      obtain ⟨hc, hrest⟩ := hnd
      have hc2 : k0 ∉ List.map Prod.fst tl := by simpa using hc
      rcases List.mem_cons.mp h with h1 | h2
      · cases h1
        simp [lookupKV]
      · simp only [lookupKV]
        split
        · rename_i he
          subst he
          exact absurd (List.mem_map.mpr ⟨(k0, v), h2, rfl⟩) hc2
        · exact ih hrest h2

theorem lookupKV_setKV_self {α : Type} (k : String) (v : α) (l : List (String × α)) :
    lookupKV k (setKV k v l) = some v := by
  induction l with
  | nil => simp [setKV, lookupKV]
  | cons hd tl ih =>
      obtain ⟨k0, v0⟩ := hd
      simp only [setKV]
      split
      · rename_i he
        subst he
        simp [lookupKV]
      · rename_i hne
        simp only [lookupKV]
        rw [if_neg hne]
        exact ih

theorem lookupKV_setKV_ne {α : Type} {k k1 : String} (hne : k1 ≠ k) (v : α)
    (l : List (String × α)) : lookupKV k1 (setKV k v l) = lookupKV k1 l := by
  induction l with
  | nil =>
      simp only [setKV, lookupKV]
      rw [if_neg (fun h => hne h.symm)]
  | cons hd tl ih =>
      obtain ⟨k0, v0⟩ := hd
      simp only [setKV]
      split
      · rename_i he
        subst he
        simp only [lookupKV]
        rw [if_neg (fun h => hne h.symm), if_neg (fun h => hne h.symm)]
      · simp only [lookupKV]
        split
        · rfl
        · exact ih

/-! ## Lemmas about well-formedness and deep equality -/

/-- Deep equality lifted to value-or-undefined: undefined equals only itself. -/
def jeqO : Option JValue → Option JValue → Bool
  | none, none => true
  | some a, some b => jeq a b
  | _, _ => false

/-- Well-formedness lifted to value-or-undefined. -/
def wfO : Option JValue → Bool
  | none => true
  | some v => wfJ v

theorem sizeOf_pos_jvalue (v : JValue) : 1 ≤ sizeOf v := by
  cases v <;> simp <;> omega

theorem wfList_mem {vs : List JValue} (h : wfList vs = true) {v : JValue} (hv : v ∈ vs) :
    wfJ v = true := by
  induction vs with
  | nil => simp at hv
  | cons a rest ih =>
      rw [wfList] at h
      simp only [Bool.and_eq_true] at h
      rcases List.mem_cons.mp hv with h1 | h2
      · subst h1; exact h.1
      · exact ih h.2 h2

theorem wfEntries_mem {kvs : List (String × JValue)} (h : wfEntries kvs = true)
    {k : String} {v : JValue} (hv : (k, v) ∈ kvs) : wfJ v = true := by
  induction kvs with
  | nil => simp at hv
  | cons a rest ih =>
      obtain ⟨k0, v0⟩ := a
      rw [wfEntries] at h
      simp only [Bool.and_eq_true] at h
      rcases List.mem_cons.mp hv with h1 | h2
      · cases h1; exact h.1
      · exact ih h.2 h2

theorem wfJ_obj_nodup {kvs : List (String × JValue)} (h : wfJ (.obj kvs) = true) :
    nodupKeys (keysOf kvs) = true := by
  rw [wfJ] at h
  simp only [Bool.and_eq_true] at h
  exact h.1

theorem wfJ_obj_entries {kvs : List (String × JValue)} (h : wfJ (.obj kvs) = true) :
    wfEntries kvs = true := by
  rw [wfJ] at h
  simp only [Bool.and_eq_true] at h
  exact h.2

theorem wfJ_obj_lookup {kvs : List (String × JValue)} (h : wfJ (.obj kvs) = true)
    {k : String} {v : JValue} (hv : lookupKV k kvs = some v) : wfJ v = true :=
  wfEntries_mem (wfJ_obj_entries h) (lookupKV_mem hv)

theorem jeqList_of_forall {vs : List JValue} (hall : ∀ w ∈ vs, jeq w w = true) :
    jeqList vs vs = true := by
  induction vs with
  | nil => rw [jeqList]
  | cons a rest ih =>
      rw [jeqList]
      simp only [Bool.and_eq_true]
      exact ⟨hall a (List.mem_cons_self _ _), ih (fun w hw => hall w (List.mem_cons_of_mem _ hw))⟩

theorem jeqEntries_of_forall {xs bs : List (String × JValue)}
    (h : ∀ kv ∈ xs, ∃ w, lookupKV kv.1 bs = some w ∧ jeq kv.2 w = true) :
    jeqEntries xs bs = true := by
  induction xs with
  | nil => rw [jeqEntries]
  | cons a rest ih =>
      obtain ⟨k, v⟩ := a
      rw [jeqEntries]
      obtain ⟨w, hw, hjeq⟩ := h (k, v) (List.mem_cons_self _ _)
      rw [hw]
      simp only [Bool.and_eq_true]
      exact ⟨hjeq, ih (fun kv hkv => h kv (List.mem_cons_of_mem _ hkv))⟩

theorem keysCovered_of {ys xs : List (String × JValue)}
    (h : ∀ kv ∈ ys, (lookupKV kv.1 xs).isSome = true) : keysCovered ys xs = true := by
  rw [keysCovered]
  rw [List.all_eq_true]
  exact h

/-- Introduction rule for deep equality of two objects through their lookup
functions, for a left object with distinct keys. -/
theorem jeq_obj_of {xs ys : List (String × JValue)} (hnd : nodupKeys (keysOf xs) = true)
    (h1 : ∀ k v, lookupKV k xs = some v → ∃ w, lookupKV k ys = some w ∧ jeq v w = true)
    (h2 : ∀ kv ∈ ys, (lookupKV kv.1 xs).isSome = true) : jeq (.obj xs) (.obj ys) = true := by
  rw [jeq]
  simp only [Bool.and_eq_true]
  constructor
  · exact jeqEntries_of_forall (fun kv hkv => h1 kv.1 kv.2 (lookupKV_of_mem_nodup hnd hkv))
  · exact keysCovered_of h2

theorem jeq_refl_aux : ∀ (n : Nat) (v : JValue), sizeOf v ≤ n → wfJ v = true →
    jeq v v = true := by
  intro n
  induction n with
  | zero =>
      intro v hv _
      have := sizeOf_pos_jvalue v
      omega
  | succ n ih =>
      intro v hv hwf
      match v with
      | .str s => rw [jeq]; simp
      | .num i => rw [jeq]; simp
      | .boolean b => rw [jeq]; simp
      | .null => rw [jeq]
      | .arr vs =>
          rw [jeq]
          refine jeqList_of_forall (fun w hw => ih w ?_ ?_)
          · have h1 := sizeOf_mem_lt hw
            have h2 : sizeOf (JValue.arr vs) = 1 + sizeOf vs := by simp
            omega
          · rw [wfJ] at hwf
            exact wfList_mem hwf hw
      | .obj kvs =>
          have hnd := wfJ_obj_nodup hwf
          have hent := wfJ_obj_entries hwf
          refine jeq_obj_of hnd (fun k v hv2 => ⟨v, hv2, ?_⟩)
            (fun kv hkv => lookupKV_isSome_of_mem hkv)
          refine ih v ?_ (wfEntries_mem hent (lookupKV_mem hv2))
          have h1 := sizeOf_snd_lt_of_mem (lookupKV_mem hv2)
          have h2 : sizeOf (JValue.obj kvs) = 1 + sizeOf kvs := by simp
          omega

/-- Deep equality is reflexive on well-formed values. -/
theorem jeq_refl {v : JValue} (h : wfJ v = true) : jeq v v = true :=
  jeq_refl_aux (sizeOf v) v (Nat.le_refl _) h

/-- strict or deep primitive equality implies deep equality. -/
theorem jeq_of_primitiveEqual {a b : JValue} (h : primitiveEqual a b = true) :
    jeq a b = true := by
  cases a <;> cases b <;>
    simp only [primitiveEqual, strictEq] at h ⊢ <;>
    first
      | exact h
      | simp_all [jeq]
      | (rw [jeq] at h ⊢; exact h)

/-- primitiveEqual is reflexive on well-formed arrays (deep array equality). -/
theorem primitiveEqual_refl_arr {vs : List JValue} (h : wfJ (.arr vs) = true) :
    primitiveEqual (.arr vs) (.arr vs) = true := by
  simp only [primitiveEqual]
  exact jeq_refl h

/-! ## Membership and distinctness of the deduplicated key union -/

theorem mem_dedupKeys : ∀ (seen l : List String) (k : String),
    k ∈ dedupKeys seen l ↔ (k ∈ l ∧ k ∉ seen) := by
  intro seen l
  induction l generalizing seen with
  | nil => intro k; simp [dedupKeys]
  | cons a rest ih =>
      intro k
      rw [dedupKeys]
      split
      · rename_i hc
        rw [ih seen k]
        simp only [List.mem_cons]
        constructor
        · rintro ⟨h1, h2⟩; exact ⟨Or.inr h1, h2⟩
        · rintro ⟨h1 | h1, h2⟩
          · subst h1
            exact absurd (by simpa using hc) h2
          · exact ⟨h1, h2⟩
      · rename_i hc
        have hcm : a ∉ seen := by simpa using hc
        simp only [List.mem_cons, ih (a :: seen) k, List.mem_cons]
        constructor
        · rintro (h1 | ⟨h1, h2⟩)
          · subst h1; exact ⟨Or.inl rfl, hcm⟩
          · push_neg at h2
            exact ⟨Or.inr h1, h2.2⟩
        · rintro ⟨h1 | h1, h2⟩
          · subst h1; exact Or.inl rfl
          · by_cases hk : k = a
            · subst hk; exact Or.inl rfl
            · exact Or.inr ⟨h1, by simp [hk, h2]⟩

theorem nodupKeys_dedupKeys : ∀ (seen l : List String),
    nodupKeys (dedupKeys seen l) = true := by
  intro seen l
  induction l generalizing seen with
  | nil => rw [dedupKeys]; rw [nodupKeys]
  | cons a rest ih =>
      rw [dedupKeys]
      split
      · exact ih seen
      · rw [nodupKeys]
        simp only [Bool.and_eq_true]
        refine ⟨?_, ih (a :: seen)⟩
        have : a ∉ dedupKeys (a :: seen) rest := by
          rw [mem_dedupKeys]
          simp
        simpa using this

/-! ## Idempotence of diff -/

theorem diffEntries_const {os ns : List (String × JValue)} :
    ∀ (KS : List String) (accM accD : Option (List (String × JValue))),
    (∀ k ∈ KS, diffV (lookupKV k os) (lookupKV k ns) = some ⟨none, none⟩) →
    diffEntries os ns KS accM accD = some (accM, accD) := by
  intro KS
  induction KS with
  | nil => intro accM accD _; rw [diffEntries]
  | cons k rest ih =>
      intro accM accD h
      rw [diffEntries]
      rw [h k (List.mem_cons_self _ _)]
      exact ih accM accD (fun k2 hk2 => h k2 (List.mem_cons_of_mem _ hk2))

theorem diffV_self_aux : ∀ (n : Nat) (a : JValue), sizeOf a ≤ n → wfJ a = true →
    diffV (some a) (some a) = some ⟨none, none⟩ := by
  intro n
  induction n with
  | zero =>
      intro a ha _
      have := sizeOf_pos_jvalue a
      omega
  | succ n ih =>
      intro a ha hwf
      match a with
      | .str s => simp [diffV, valueType, primitiveEqual, strictEq]
      | .num i => simp [diffV, valueType, primitiveEqual, strictEq]
      | .boolean b => simp [diffV, valueType, primitiveEqual, strictEq]
      | .null => simp [diffV, valueType, primitiveEqual, strictEq]
      | .arr vs =>
          have hpe : primitiveEqual (.arr vs) (.arr vs) = true :=
            primitiveEqual_refl_arr hwf
          simp [diffV, valueType, hpe]
      | .obj kvs =>
          rw [diffV]
          have hrec : ∀ k ∈ dedupKeys [] (keysOf kvs ++ keysOf kvs),
              diffV (lookupKV k kvs) (lookupKV k kvs) = some ⟨none, none⟩ := by
            intro k hk
            have hk2 : k ∈ keysOf kvs := by
              rw [mem_dedupKeys] at hk
              rcases List.mem_append.mp hk.1 with h | h <;> exact h
            obtain ⟨v, hv⟩ := Option.isSome_iff_exists.mp (lookupKV_isSome_of_mem_keys hk2)
            rw [hv]
            refine ih v ?_ (wfJ_obj_lookup hwf hv)
            have h1 := sizeOf_snd_lt_of_mem (lookupKV_mem hv)
            have h2 : sizeOf (JValue.obj kvs) = 1 + sizeOf kvs := by simp
            omega
          rw [diffEntries_const _ none none hrec]
          simp [valueType]

/-- diff of a well-formed value with itself reports no modification and no
deletion. -/
theorem diffV_self {a : JValue} (h : wfJ a = true) :
    diffV (some a) (some a) = some ⟨none, none⟩ :=
  diffV_self_aux (sizeOf a) a (Nat.le_refl _) h

/-! ## Characterizations of the three recursions, towards the round trip -/

/-- Kind-compatibility lifted to value-or-undefined. -/
def compatO : Option JValue → Option JValue → Bool
  | some a, some b => compat a b
  | _, _ => true

theorem compatEntries_lookup {as bs : List (String × JValue)}
    (h : compatEntries as bs = true) {k : String} {v w : JValue}
    (hv : (k, v) ∈ as) (hw : lookupKV k bs = some w) : compat v w = true := by
  induction as with
  | nil => simp at hv
  | cons a rest ih =>
      obtain ⟨k0, v0⟩ := a
      rw [compatEntries] at h
      simp only [Bool.and_eq_true] at h
      rcases List.mem_cons.mp hv with h1 | h2
      · cases h1
        have := h.1
        rw [hw] at this
        exact this
      · exact ih h.2 h2

theorem compat_obj_lookup {as bs : List (String × JValue)}
    (h : compat (.obj as) (.obj bs) = true) {k : String} {v w : JValue}
    (hv : lookupKV k as = some v) (hw : lookupKV k bs = some w) : compat v w = true := by
  rw [compat] at h
  exact compatEntries_lookup h (lookupKV_mem hv) hw

/-- nodupKeys agrees with List.Nodup. -/
theorem nodupKeys_iff {l : List String} : nodupKeys l = true ↔ l.Nodup := by
  induction l with
  | nil => simp [nodupKeys]
  | cons a rest ih =>
      rw [nodupKeys]
      simp only [Bool.and_eq_true, List.nodup_cons]
      rw [ih]
      constructor
      · rintro ⟨h1, h2⟩
        exact ⟨by simpa using h1, h2⟩
      · rintro ⟨h1, h2⟩
        exact ⟨by simpa using h1, h2⟩

theorem nodupKeys_of_sublist {l1 l2 : List String} (hs : l1.Sublist l2)
    (h : nodupKeys l2 = true) : nodupKeys l1 = true :=
  nodupKeys_iff.mpr ((nodupKeys_iff.mp h).sublist hs)

/-- The modified and deleted accumulators of diffEntries: an accumulator that
never received an entry stays absent. -/
def combine (acc : Option (List (String × JValue))) (l : List (String × JValue)) :
    Option (List (String × JValue)) :=
  match acc, l with
  | none, [] => none
  | acc, l => some (acc.getD [] ++ l)

/-- The modified entry diff produces under key k when diffing two objects. -/
def modOf (os ns : List (String × JValue)) (k : String) : Option JValue :=
  (diffV (lookupKV k os) (lookupKV k ns)).bind DiffRes.modified

/-- The deleted entry diff produces under key k when diffing two objects. -/
def delOf (os ns : List (String × JValue)) (k : String) : Option JValue :=
  (diffV (lookupKV k os) (lookupKV k ns)).bind DiffRes.deleted

theorem combine_nil (acc : Option (List (String × JValue))) : combine acc [] = acc := by
  cases acc <;> simp [combine]

theorem combine_cons (acc : Option (List (String × JValue))) (kv : String × JValue)
    (l : List (String × JValue)) :
    combine acc (kv :: l) = combine (some (acc.getD [] ++ [kv])) l := by
  cases acc <;> cases l <;> simp [combine]

theorem diffEntries_spec {os ns : List (String × JValue)} :
    ∀ (KS : List String) (accM accD : Option (List (String × JValue))),
    (∀ k ∈ KS, (diffV (lookupKV k os) (lookupKV k ns)).isSome = true) →
    diffEntries os ns KS accM accD =
      some (combine accM (KS.filterMap (fun k => (modOf os ns k).map (fun m => (k, m)))),
            combine accD (KS.filterMap (fun k => (delOf os ns k).map (fun d => (k, d))))) := by
  intro KS
  induction KS with
  | nil =>
      intro accM accD _
      rw [diffEntries]
      simp [combine_nil]
  | cons k rest ih =>
      intro accM accD h
      obtain ⟨d, hd⟩ := Option.isSome_iff_exists.mp (h k (List.mem_cons_self _ _))
      have hmod : modOf os ns k = d.modified := by rw [modOf, hd]; rfl
      have hdel : delOf os ns k = d.deleted := by rw [delOf, hd]; rfl
      rw [diffEntries, hd]
      simp only
      cases hm : d.modified <;> cases hdl : d.deleted <;>
        simp only [hm, hdl] <;>
        rw [ih _ _ (fun k2 hk2 => h k2 (List.mem_cons_of_mem _ hk2))] <;>
        simp [List.filterMap_cons, hmod, hdel, hm, hdl, combine_cons]

/-- Lookup in a list built by filtering a key list through an optional-value
function. -/
theorem lookupKV_keysFilterMap (h : String → Option JValue) :
    ∀ (KS : List String), nodupKeys KS = true → ∀ (k : String),
    lookupKV k (KS.filterMap (fun k0 => (h k0).map (fun m => (k0, m)))) =
      if k ∈ KS then h k else none := by
  intro KS
  induction KS with
  | nil => intro _ k; simp [lookupKV]
  | cons k0 rest ih =>
      intro hnd k
      rw [nodupKeys] at hnd
      simp only [Bool.and_eq_true] at hnd
      have hk0 : k0 ∉ rest := by simpa using hnd.1
      cases hh : h k0 with
      | none =>
          simp only [List.filterMap_cons, hh, Option.map_none']
          rw [ih hnd.2 k]
          by_cases hk : k = k0
          · subst hk
            simp [hk0, hh]
          · simp [hk]
      | some m =>
          simp only [List.filterMap_cons, hh, Option.map_some']
          rw [lookupKV]
          by_cases hk : k0 = k
          · subst hk
            simp [hh]
          · rw [if_neg hk, ih hnd.2 k]
            have : ¬ k = k0 := fun hh2 => hk hh2.symm
            simp [this]

theorem keysOf_keysFilterMap_sublist (h : String → Option JValue) :
    ∀ (KS : List String),
    (keysOf (KS.filterMap (fun k0 => (h k0).map (fun m => (k0, m))))).Sublist KS := by
  intro KS
  induction KS with
  | nil => simp [keysOf]
  | cons k0 rest ih =>
      cases hh : h k0 with
      | none =>
          simp only [List.filterMap_cons, hh, Option.map_none']
          exact ih.cons _
      | some m =>
          simp only [List.filterMap_cons, hh, Option.map_some', keysOf, List.map_cons]
          exact (ih : (keysOf _).Sublist rest).cons₂ _

/-- Lookup in a list built by filtering the entries of an object through a
key-preserving optional-value function. -/
theorem lookupKV_entriesFilterMap (g : String → JValue → Option JValue) :
    ∀ (l : List (String × JValue)), nodupKeys (keysOf l) = true → ∀ (k : String),
    lookupKV k (l.filterMap (fun kv => (g kv.1 kv.2).map (fun x => (kv.1, x)))) =
      match lookupKV k l with
      | some v => g k v
      | none => none := by
  intro l
  induction l with
  | nil => intro _ k; simp [lookupKV]
  | cons a rest ih =>
      obtain ⟨k0, v0⟩ := a
      intro hnd k
      simp only [keysOf, List.map_cons, nodupKeys, Bool.and_eq_true] at hnd
      have hk0 : k0 ∉ List.map Prod.fst rest := by simpa using hnd.1
      cases hh : g k0 v0 with
      | none =>
          simp only [List.filterMap_cons, hh, Option.map_none']
          rw [ih hnd.2 k]
          rw [lookupKV]
          by_cases hk : k0 = k
          · subst hk
            rw [if_pos rfl]
            have : lookupKV k0 rest = none :=
              lookupKV_eq_none_of_not_mem_keys (by simpa [keysOf] using hk0)
            rw [this]
            dsimp only
            exact hh.symm
          · rw [if_neg hk]
      | some m =>
          simp only [List.filterMap_cons, hh, Option.map_some']
          rw [lookupKV, lookupKV]
          by_cases hk : k0 = k
          · subst hk
            rw [if_pos rfl, if_pos rfl]
            dsimp only
            exact hh.symm
          · rw [if_neg hk, if_neg hk, ih hnd.2 k]

theorem keysOf_entriesFilterMap_sublist (g : String → JValue → Option JValue) :
    ∀ (l : List (String × JValue)),
    (keysOf (l.filterMap (fun kv => (g kv.1 kv.2).map (fun x => (kv.1, x))))).Sublist
      (keysOf l) := by
  intro l
  induction l with
  | nil => simp [keysOf]
  | cons a rest ih =>
      obtain ⟨k0, v0⟩ := a
      cases hh : g k0 v0 with
      | none =>
          simp only [List.filterMap_cons, hh, Option.map_none', keysOf, List.map_cons]
          exact ih.cons _
      | some m =>
          simp only [List.filterMap_cons, hh, Option.map_some', keysOf, List.map_cons]
          exact (ih : (keysOf _).Sublist _).cons₂ _

theorem delEntries_spec (dels : List (String × JValue)) :
    ∀ (entries : List (String × JValue)),
    (∀ kv ∈ entries, (recursiveDelete (some kv.2) (lookupKV kv.1 dels)).isSome = true) →
    delEntries dels entries =
      some (entries.filterMap (fun kv =>
        ((recursiveDelete (some kv.2) (lookupKV kv.1 dels)).bind id).map
          (fun x => (kv.1, x)))) := by
  intro entries
  induction entries with
  | nil => intro _; rw [delEntries]; simp
  | cons a rest ih =>
      obtain ⟨k, v⟩ := a
      intro h
      obtain ⟨r, hr⟩ := Option.isSome_iff_exists.mp (h (k, v) (List.mem_cons_self _ _))
      rw [delEntries, hr]
      rw [ih (fun kv hkv => h kv (List.mem_cons_of_mem _ hkv))]
      rw [List.filterMap_cons]
      cases r with
      | none => simp [hr]
      | some v1 => simp [hr]

theorem filterMap_eq_self {α : Type} (f : α → Option α) :
    ∀ l : List α, (∀ x ∈ l, f x = some x) → l.filterMap f = l := by
  intro l
  induction l with
  | nil => intro _; simp
  | cons a rest ih =>
      intro h
      rw [List.filterMap_cons, h a (List.mem_cons_self _ _),
        ih (fun x hx => h x (List.mem_cons_of_mem _ hx))]

/-- When the deletion tree is empty, the entry filter of the deletion pass is
the identity. -/
theorem entriesFilterMap_nildels (entries : List (String × JValue)) :
    entries.filterMap (fun kv =>
        ((recursiveDelete (some kv.2) (lookupKV kv.1 ([] : List (String × JValue)))).bind
          id).map (fun x => (kv.1, x))) = entries := by
  refine filterMap_eq_self _ _ (fun kv _ => ?_)
  rw [show lookupKV kv.1 ([] : List (String × JValue)) = none from by rw [lookupKV]]
  rw [recursiveDelete]
  rfl

theorem lookupKV_mergeEntries (os : List (String × JValue)) :
    ∀ (ms acc : List (String × JValue)), nodupKeys (keysOf ms) = true → ∀ (k : String),
    lookupKV k (mergeEntries os acc ms) =
      match lookupKV k ms with
      | some v => some (recursiveMergeV (lookupKV k os) v)
      | none => lookupKV k acc := by
  intro ms
  induction ms with
  | nil => intro acc _ k; rw [mergeEntries]; simp [lookupKV]
  | cons a rest ih =>
      obtain ⟨k0, v0⟩ := a
      intro acc hnd k
      simp only [keysOf, List.map_cons, nodupKeys, Bool.and_eq_true] at hnd
      have hk0 : k0 ∉ List.map Prod.fst rest := by simpa using hnd.1
      rw [mergeEntries]
      rw [ih _ hnd.2 k]
      rw [lookupKV]
      by_cases hk : k0 = k
      · subst hk
        rw [if_pos rfl]
        have hrest : lookupKV k0 rest = none :=
          lookupKV_eq_none_of_not_mem_keys (by simpa [keysOf] using hk0)
        rw [hrest, lookupKV_setKV_self]
      · rw [if_neg hk]
        cases hmm : lookupKV k rest with
        | some v => rfl
        | none =>
            exact lookupKV_setKV_ne (fun hh => hk hh.symm) _ _

theorem mem_keysOf_setKV {α : Type} {k1 k : String} {v : α} {l : List (String × α)}
    (h : k1 ∈ keysOf (setKV k v l)) : k1 = k ∨ k1 ∈ keysOf l := by
  induction l with
  | nil =>
      simp [setKV, keysOf] at h
      exact Or.inl h
  | cons a rest ih =>
      obtain ⟨k0, v0⟩ := a
      rw [setKV] at h
      split at h
      · rename_i he
        simp only [keysOf, List.map_cons, List.mem_cons] at h ⊢
        rcases h with h | h
        · exact Or.inr (Or.inl h)
        · exact Or.inr (Or.inr h)
      · simp only [keysOf, List.map_cons, List.mem_cons] at h ⊢
        rcases h with h | h
        · exact Or.inr (Or.inl h)
        · rcases ih h with h2 | h2
          · exact Or.inl h2
          · exact Or.inr (Or.inr h2)

theorem nodupKeys_setKV {α : Type} {k : String} {v : α} {l : List (String × α)}
    (h : nodupKeys (keysOf l) = true) : nodupKeys (keysOf (setKV k v l)) = true := by
  induction l with
  | nil => simp [setKV, keysOf, nodupKeys]
  | cons a rest ih =>
      obtain ⟨k0, v0⟩ := a
      simp only [keysOf, List.map_cons, nodupKeys, Bool.and_eq_true] at h
      have hk0 : k0 ∉ List.map Prod.fst rest := by simpa using h.1
      rw [setKV]
      split
      · rename_i he
        simp only [keysOf, List.map_cons, nodupKeys, Bool.and_eq_true]
        constructor
        · simpa using hk0
        · exact h.2
      · rename_i he
        simp only [keysOf, List.map_cons, nodupKeys, Bool.and_eq_true]
        constructor
        · have : k0 ∉ keysOf (setKV k v rest) := by
            intro hmem
            rcases mem_keysOf_setKV hmem with h2 | h2
            · exact he h2
            · exact hk0 (by simpa [keysOf] using h2)
          simpa [keysOf] using this
        · exact ih h.2

theorem nodupKeys_mergeEntries (os : List (String × JValue)) :
    ∀ (ms acc : List (String × JValue)), nodupKeys (keysOf acc) = true →
    nodupKeys (keysOf (mergeEntries os acc ms)) = true := by
  intro ms
  induction ms with
  | nil => intro acc h; rw [mergeEntries]; exact h
  | cons a rest ih =>
      obtain ⟨k0, v0⟩ := a
      intro acc h
      rw [mergeEntries]
      exact ih _ (nodupKeys_setKV h)

/-- Deep equality of two objects from a pointwise lookup correspondence, for a
left object with distinct keys. -/
theorem jeq_obj_of_lookupwise {xs ys : List (String × JValue)}
    (hnd : nodupKeys (keysOf xs) = true)
    (h : ∀ k, jeqO (lookupKV k xs) (lookupKV k ys) = true) :
    jeq (.obj xs) (.obj ys) = true := by
  refine jeq_obj_of hnd ?_ ?_
  · intro k v hv
    have hk := h k
    rw [hv] at hk
    cases hys : lookupKV k ys with
    | none => rw [hys] at hk; simp [jeqO] at hk
    | some w =>
        rw [hys] at hk
        exact ⟨w, rfl, hk⟩
  · intro kv hkv
    have hk := h kv.1
    obtain ⟨w, hw⟩ := Option.isSome_iff_exists.mp (lookupKV_isSome_of_mem (k := kv.1) (v := kv.2) (by simpa using hkv))
    rw [hw] at hk
    cases hxs : lookupKV kv.1 xs with
    | none => rw [hxs] at hk; simp [jeqO] at hk
    | some v => simp

theorem diffV_obj_spec {os ns : List (String × JValue)}
    (h : ∀ k ∈ dedupKeys [] (keysOf os ++ keysOf ns),
      (diffV (lookupKV k os) (lookupKV k ns)).isSome = true) :
    diffV (some (.obj os)) (some (.obj ns)) =
      some ⟨(combine none ((dedupKeys [] (keysOf os ++ keysOf ns)).filterMap
                (fun k => (modOf os ns k).map (fun m => (k, m))))).map .obj,
            (combine none ((dedupKeys [] (keysOf os ++ keysOf ns)).filterMap
                (fun k => (delOf os ns k).map (fun d => (k, d))))).map .obj⟩ := by
  rw [diffV]
  simp only [valueType, ne_eq, not_true_eq_false, if_false]
  rw [diffEntries_spec _ none none h]

theorem recursiveDelete_obj_spec {os delL : List (String × JValue)}
    (h : ∀ kv ∈ os, (recursiveDelete (some kv.2) (lookupKV kv.1 delL)).isSome = true) :
    recursiveDelete (some (.obj os)) ((combine none delL).map .obj) =
      some (some (.obj (os.filterMap (fun kv =>
        ((recursiveDelete (some kv.2) (lookupKV kv.1 delL)).bind id).map
          (fun x => (kv.1, x)))))) := by
  cases delL with
  | nil =>
      rw [combine_nil]
      simp only [Option.map_none']
      rw [recursiveDelete, entriesFilterMap_nildels]
  | cons a rest =>
      have hc : combine none (a :: rest) = some (a :: rest) := by simp [combine]
      rw [hc]
      simp only [Option.map_some']
      rw [recursiveDelete]
      rw [show jsEntries (.obj os) = some os from rfl]
      dsimp only
      rw [delEntries_spec _ _ h]
      rfl

theorem recursiveMerge_obj_spec (os' modL : List (String × JValue))
    (hndm : nodupKeys (keysOf modL) = true) :
    ∃ fl, recursiveMerge (some (.obj os')) ((combine none modL).map .obj) =
        some (.obj fl) ∧
      (nodupKeys (keysOf os') = true → nodupKeys (keysOf fl) = true) ∧
      ∀ k, lookupKV k fl =
        match lookupKV k modL with
        | some m => some (recursiveMergeV (lookupKV k os') m)
        | none => lookupKV k os' := by
  cases modL with
  | nil =>
      refine ⟨os', ?_, fun h => h, ?_⟩
      · rw [combine_nil]
        simp only [Option.map_none']
        rw [recursiveMerge]
      · intro k
        rw [show lookupKV k ([] : List (String × JValue)) = none from by rw [lookupKV]]
  | cons a rest =>
      refine ⟨mergeEntries os' os' (a :: rest), ?_, ?_, ?_⟩
      · have hc : combine none (a :: rest) = some (a :: rest) := by simp [combine]
        rw [hc]
        simp only [Option.map_some']
        rw [recursiveMerge, recursiveMergeV]
      · intro h
        exact nodupKeys_mergeEntries os' (a :: rest) os' h
      · intro k
        exact lookupKV_mergeEntries os' (a :: rest) os' hndm k

theorem exists_obj_of_valueType {o : JValue} (h : valueType (some o) = .object) :
    ∃ os, o = .obj os := by
  cases o <;> simp [valueType] at h <;> exact ⟨_, rfl⟩

theorem diffV_prim {o n : JValue} (ho : valueType (some o) = .primitive)
    (hn : valueType (some n) = .primitive) :
    diffV (some o) (some n) =
      if primitiveEqual o n then some ⟨none, none⟩ else some ⟨some n, none⟩ := by
  have ho2 : ∀ os, o ≠ .obj os := by
    intro os he
    subst he
    simp [valueType] at ho
  have hn2 : ∀ ns, n ≠ .obj ns := by
    intro ns he
    subst he
    simp [valueType] at hn
  cases o <;> cases n <;>
    first
      | exact absurd rfl (ho2 _)
      | exact absurd rfl (hn2 _)
      | simp [diffV, valueType, primitiveEqual, strictEq]

theorem recursiveMergeV_prim {o n : JValue} (ho : valueType (some o) = .primitive)
    (hn : valueType (some n) = .primitive) : recursiveMergeV (some o) n = n := by
  have ho2 : ∀ os, o ≠ .obj os := by
    intro os he
    subst he
    simp [valueType] at ho
  have hn2 : ∀ ns, n ≠ .obj ns := by
    intro ns he
    subst he
    simp [valueType] at hn
  cases o <;> cases n <;>
    first
      | exact absurd rfl (ho2 _)
      | exact absurd rfl (hn2 _)
      | simp [recursiveMergeV, valueType]

theorem compat_of_types {o n : JValue} (hc : compat o n = true) :
    valueType (some o) = valueType (some n) := by
  cases o <;> cases n <;> first
    | rfl
    | simp [compat] at hc

/-- The heart of the round-trip property: diffing two kind-compatible
well-formed values (at least one of which is present) never throws, and
merging the diff into the old value reconstructs a value deeply equal to the
new one. -/
theorem roundTrip_aux : ∀ (N : Nat) (ao bo : Option JValue),
    sizeOf ao + sizeOf bo ≤ N →
    wfO ao = true → wfO bo = true → compatO ao bo = true →
    (ao.isSome = true ∨ bo.isSome = true) →
    ∃ d, diffV ao bo = some d ∧
      ∃ co, mergeDiff ao d = some co ∧ jeqO co bo = true := by
  intro N
  induction N with
  | zero =>
      intro ao bo hsz _ _ _ _
      have h1 : 1 ≤ sizeOf ao := by cases ao <;> simp <;> omega
      have h2 : 1 ≤ sizeOf bo := by cases bo <;> simp <;> omega
      omega
  | succ N ih =>
      intro ao bo hsz hwa hwb hc hsome
      match ao, bo with
      | none, none => simp at hsome
      | none, some n =>
          refine ⟨⟨some n, none⟩, by rw [diffV], some n, ?_, ?_⟩
          · rw [mergeDiff]
            rw [show (recursiveDelete none (⟨some n, none⟩ : DiffRes).deleted) = some none from
              by rw [recursiveDelete]]
            simp only [Option.map_some']
            rw [show recursiveMerge none ((⟨some n, none⟩ : DiffRes).modified) =
              some (recursiveMergeV none n) from by rw [recursiveMerge]]
            rw [show recursiveMergeV none n = n from by rw [recursiveMergeV]]
          · exact jeq_refl hwb
      | some o, none =>
          refine ⟨⟨none, some .null⟩, by rw [diffV], none, ?_, rfl⟩
          rw [mergeDiff]
          rw [show (recursiveDelete (some o) (⟨none, some .null⟩ : DiffRes).deleted) =
            some none from by rw [recursiveDelete]]
          simp only [Option.map_some']
          rw [show recursiveMerge none ((⟨none, some .null⟩ : DiffRes).modified) = none from
            by rw [recursiveMerge]]
      | some o, some n =>
          have htype : valueType (some o) = valueType (some n) := compat_of_types hc
          cases hvt : valueType (some o) with
          | undef => exact absurd hvt (by cases o <;> simp [valueType])
          | primitive =>
              have hvtn : valueType (some n) = .primitive := htype ▸ hvt
              by_cases hpe : primitiveEqual o n = true
              · refine ⟨⟨none, none⟩, by rw [diffV_prim hvt hvtn, if_pos hpe], some o, ?_, ?_⟩
                · rw [mergeDiff]
                  rw [show (recursiveDelete (some o) (⟨none, none⟩ : DiffRes).deleted) =
                    some (some o) from by rw [recursiveDelete]]
                  simp only [Option.map_some']
                  rw [show recursiveMerge (some o) ((⟨none, none⟩ : DiffRes).modified) =
                    some o from by rw [recursiveMerge]]
                · exact jeq_of_primitiveEqual hpe
              · have hpe2 : primitiveEqual o n = false := by
                  cases hx : primitiveEqual o n
                  · rfl
                  · exact absurd hx hpe
                refine ⟨⟨some n, none⟩, by rw [diffV_prim hvt hvtn, hpe2]; simp, some n, ?_, ?_⟩
                · rw [mergeDiff]
                  rw [show (recursiveDelete (some o) (⟨some n, none⟩ : DiffRes).deleted) =
                    some (some o) from by rw [recursiveDelete]]
                  simp only [Option.map_some']
                  rw [show recursiveMerge (some o) ((⟨some n, none⟩ : DiffRes).modified) =
                    some (recursiveMergeV (some o) n) from by rw [recursiveMerge]]
                  rw [recursiveMergeV_prim hvt hvtn]
                · exact jeq_refl hwb
          | object =>
              obtain ⟨os, ho⟩ := exists_obj_of_valueType hvt
              obtain ⟨ns, hn⟩ := exists_obj_of_valueType (htype ▸ hvt)
              subst ho
              subst hn
              have hwos : wfJ (.obj os) = true := hwa
              have hwns : wfJ (.obj ns) = true := hwb
              have hcompat : compat (.obj os) (.obj ns) = true := hc
              have hndos := wfJ_obj_nodup hwos
              have hndns := wfJ_obj_nodup hwns
              have hKSnd : nodupKeys (dedupKeys [] (keysOf os ++ keysOf ns)) = true :=
                nodupKeys_dedupKeys _ _
              have hKSmem : ∀ k, k ∈ dedupKeys [] (keysOf os ++ keysOf ns) ↔
                  (k ∈ keysOf os ∨ k ∈ keysOf ns) := by
                intro k
                rw [mem_dedupKeys]
                simp
              -- the induction hypothesis, instantiated at every key of the union
              have hIH : ∀ k ∈ dedupKeys [] (keysOf os ++ keysOf ns),
                  ∃ d, diffV (lookupKV k os) (lookupKV k ns) = some d ∧
                    ∃ co, mergeDiff (lookupKV k os) d = some co ∧
                      jeqO co (lookupKV k ns) = true := by
                intro k hk
                apply ih
                · have h1 := sizeOf_lookupKV k os
                  have h2 := sizeOf_lookupKV k ns
                  have h3 : sizeOf (some (JValue.obj os)) = 2 + sizeOf os := by simp; omega
                  have h4 : sizeOf (some (JValue.obj ns)) = 2 + sizeOf ns := by simp; omega
                  omega
                · cases hl : lookupKV k os with
                  | none => rfl
                  | some v => exact wfJ_obj_lookup hwos hl
                · cases hl : lookupKV k ns with
                  | none => cases lookupKV k os <;> rfl
                  | some v => exact wfJ_obj_lookup hwns hl
                · cases hlo : lookupKV k os with
                  | none => rfl
                  | some v =>
                      cases hln : lookupKV k ns with
                      | none => rfl
                      | some w => exact compat_obj_lookup hcompat hlo hln
                · rcases (hKSmem k).mp hk with h | h
                  · exact Or.inl (lookupKV_isSome_of_mem_keys h)
                  · exact Or.inr (lookupKV_isSome_of_mem_keys h)
              have hsub : ∀ k ∈ dedupKeys [] (keysOf os ++ keysOf ns),
                  (diffV (lookupKV k os) (lookupKV k ns)).isSome = true := by
                intro k hk
                obtain ⟨d, hd, _⟩ := hIH k hk
                rw [hd]
                rfl
              have hdiff := diffV_obj_spec hsub
              -- the deletion pass succeeds on every entry of os
              have hlookup_delL : ∀ k,
                  lookupKV k ((dedupKeys [] (keysOf os ++ keysOf ns)).filterMap
                    (fun k => (delOf os ns k).map (fun d => (k, d)))) =
                  if k ∈ dedupKeys [] (keysOf os ++ keysOf ns) then delOf os ns k
                  else none :=
                lookupKV_keysFilterMap (delOf os ns) _ hKSnd
              have hlookup_modL : ∀ k,
                  lookupKV k ((dedupKeys [] (keysOf os ++ keysOf ns)).filterMap
                    (fun k => (modOf os ns k).map (fun m => (k, m)))) =
                  if k ∈ dedupKeys [] (keysOf os ++ keysOf ns) then modOf os ns k
                  else none :=
                lookupKV_keysFilterMap (modOf os ns) _ hKSnd
              have hdelsucc : ∀ kv ∈ os,
                  (recursiveDelete (some kv.2)
                    (lookupKV kv.1 ((dedupKeys [] (keysOf os ++ keysOf ns)).filterMap
                      (fun k => (delOf os ns k).map (fun d => (k, d)))))).isSome = true := by
                intro kv hkv
                have hk : kv.1 ∈ dedupKeys [] (keysOf os ++ keysOf ns) :=
                  (hKSmem kv.1).mpr (Or.inl (List.mem_map.mpr ⟨kv, hkv, rfl⟩))
                obtain ⟨d, hd, co, hco, hjq⟩ := hIH kv.1 hk
                have hlk : lookupKV kv.1 os = some kv.2 :=
                  lookupKV_of_mem_nodup hndos hkv
                rw [hlookup_delL kv.1, if_pos hk]
                rw [show delOf os ns kv.1 = d.deleted from by rw [delOf, hd]; rfl]
                rw [hlk] at hco
                rw [mergeDiff] at hco
                obtain ⟨r, hr, _⟩ := Option.map_eq_some'.mp hco
                rw [hr]
                rfl
              have hdelete := recursiveDelete_obj_spec hdelsucc
              have hndos' : nodupKeys (keysOf (os.filterMap (fun kv =>
                  ((recursiveDelete (some kv.2)
                    (lookupKV kv.1 ((dedupKeys [] (keysOf os ++ keysOf ns)).filterMap
                      (fun k => (delOf os ns k).map (fun d => (k, d)))))).bind id).map
                    (fun x => (kv.1, x))))) = true :=
                nodupKeys_of_sublist (keysOf_entriesFilterMap_sublist
                  (fun k0 v0 => (recursiveDelete (some v0)
                    (lookupKV k0 ((dedupKeys [] (keysOf os ++ keysOf ns)).filterMap
                      (fun k => (delOf os ns k).map (fun d => (k, d)))))).bind id) os) hndos
              have hlookup_os' : ∀ k,
                  lookupKV k (os.filterMap (fun kv =>
                    ((recursiveDelete (some kv.2)
                      (lookupKV kv.1 ((dedupKeys [] (keysOf os ++ keysOf ns)).filterMap
                        (fun k => (delOf os ns k).map (fun d => (k, d)))))).bind id).map
                      (fun x => (kv.1, x)))) =
                  match lookupKV k os with
                  | some v => (recursiveDelete (some v)
                      (lookupKV k ((dedupKeys [] (keysOf os ++ keysOf ns)).filterMap
                        (fun k => (delOf os ns k).map (fun d => (k, d)))))).bind id
                  | none => none :=
                lookupKV_entriesFilterMap
                  (fun k0 v0 => (recursiveDelete (some v0)
                    (lookupKV k0 ((dedupKeys [] (keysOf os ++ keysOf ns)).filterMap
                      (fun k => (delOf os ns k).map (fun d => (k, d)))))).bind id) os hndos
              have hndmodL : nodupKeys (keysOf
                  ((dedupKeys [] (keysOf os ++ keysOf ns)).filterMap
                    (fun k => (modOf os ns k).map (fun m => (k, m))))) = true :=
                nodupKeys_of_sublist (keysOf_keysFilterMap_sublist _ _) hKSnd
              obtain ⟨fl, hmerge, hflnd, hfllookup⟩ :=
                recursiveMerge_obj_spec
                  (os.filterMap (fun kv =>
                    ((recursiveDelete (some kv.2)
                      (lookupKV kv.1 ((dedupKeys [] (keysOf os ++ keysOf ns)).filterMap
                        (fun k => (delOf os ns k).map (fun d => (k, d)))))).bind id).map
                      (fun x => (kv.1, x))))
                  ((dedupKeys [] (keysOf os ++ keysOf ns)).filterMap
                    (fun k => (modOf os ns k).map (fun m => (k, m))))
                  hndmodL
              -- the per-key correspondence between the merged result and ns
              have hkey : ∀ k, jeqO (lookupKV k fl) (lookupKV k ns) = true := by
                intro k
                rw [hfllookup k, hlookup_modL k]
                cases hlos : lookupKV k os with
                | some v =>
                    have hk : k ∈ dedupKeys [] (keysOf os ++ keysOf ns) :=
                      (hKSmem k).mpr (Or.inl (mem_keys_of_lookupKV (by rw [hlos]; rfl)))
                    obtain ⟨d, hd, co, hco, hjq⟩ := hIH k hk
                    rw [hlos] at hco
                    rw [mergeDiff] at hco
                    obtain ⟨r, hr, hco2⟩ := Option.map_eq_some'.mp hco
                    have hosk : (match lookupKV k os with
                        | some v => (recursiveDelete (some v)
                            (lookupKV k ((dedupKeys [] (keysOf os ++ keysOf ns)).filterMap
                              (fun k => (delOf os ns k).map (fun d => (k, d)))))).bind id
                        | none => none) = r := by
                      rw [hlos]
                      dsimp only
                      rw [hlookup_delL k, if_pos hk]
                      rw [show delOf os ns k = d.deleted from by rw [delOf, hd]; rfl]
                      rw [hr]
                      rfl
                    rw [hlookup_os' k, hosk]
                    rw [if_pos hk]
                    rw [show modOf os ns k = d.modified from by rw [modOf, hd]; rfl]
                    cases hm : d.modified with
                    | some m =>
                        rw [hm] at hco2
                        rw [show recursiveMerge r (some m) = some (recursiveMergeV r m) from
                          by rw [recursiveMerge]] at hco2
                        subst hco2
                        exact hjq
                    | none =>
                        rw [hm] at hco2
                        rw [show recursiveMerge r none = r from by rw [recursiveMerge]] at hco2
                        subst hco2
                        exact hjq
                | none =>
                    cases hlns : lookupKV k ns with
                    | some w =>
                        have hk : k ∈ dedupKeys [] (keysOf os ++ keysOf ns) :=
                          (hKSmem k).mpr (Or.inr (mem_keys_of_lookupKV (by rw [hlns]; rfl)))
                        have hsubk : diffV (lookupKV k os) (lookupKV k ns) =
                            some ⟨some w, none⟩ := by
                          rw [hlos, hlns, diffV]
                        rw [if_pos hk]
                        rw [show modOf os ns k = some w from by rw [modOf, hsubk]; rfl]
                        rw [hlookup_os' k, hlos]
                        simp only [Option.map_some']
                        rw [show recursiveMergeV none w = w from by rw [recursiveMergeV]]
                        exact jeq_refl (wfJ_obj_lookup hwns hlns)
                    | none =>
                        have hk : k ∉ dedupKeys [] (keysOf os ++ keysOf ns) := by
                          intro hk
                          rcases (hKSmem k).mp hk with h | h
                          · have := lookupKV_isSome_of_mem_keys h
                            rw [hlos] at this
                            simp at this
                          · have := lookupKV_isSome_of_mem_keys h
                            rw [hlns] at this
                            simp at this
                        rw [if_neg hk]
                        rw [hlookup_os' k, hlos]
                        rfl
              refine ⟨_, hdiff, some (.obj fl), ?_, ?_⟩
              · rw [mergeDiff]
                rw [show (⟨(combine none ((dedupKeys [] (keysOf os ++ keysOf ns)).filterMap
                    (fun k => (modOf os ns k).map (fun m => (k, m))))).map JValue.obj,
                  (combine none ((dedupKeys [] (keysOf os ++ keysOf ns)).filterMap
                    (fun k => (delOf os ns k).map (fun d => (k, d))))).map JValue.obj⟩ :
                    DiffRes).deleted =
                  (combine none ((dedupKeys [] (keysOf os ++ keysOf ns)).filterMap
                    (fun k => (delOf os ns k).map (fun d => (k, d))))).map JValue.obj from rfl]
                rw [hdelete]
                simp only [Option.map_some']
                rw [hmerge]
              · exact jeq_obj_of_lookupwise (hflnd hndos') hkey

/-- Round trip at the public type of diff and mergeDiff. -/
theorem roundTrip {a b : JValue} (hwa : wfJ a = true) (hwb : wfJ b = true)
    (hcompat : compat a b = true) :
    ∃ d, diff a b = some d ∧
      ∃ c, mergeDiff (some a) d = some (some c) ∧ jeq c b = true := by
  obtain ⟨d, hd, co, hco, hjq⟩ :=
    roundTrip_aux (sizeOf (some a) + sizeOf (some b)) (some a) (some b)
      (Nat.le_refl _) hwa hwb hcompat (Or.inl rfl)
  refine ⟨d, hd, ?_⟩
  cases co with
  | none => simp [jeqO] at hjq
  | some c => exact ⟨c, hco, hjq⟩

/-! ## Channel wire names, from BaseClient.ts (getChannelName)

The string constants model channelPrefix = "ch-", topicPrefix = "tp-",
servicePrefix = "sv-", userPrefix = "us-" and metaPrefix = "mt-" from
BaseClient.ts. -/

def chTag : String := "ch-"
def topicTag : String := "tp-"
def serviceTag : String := "sv-"
def userTag : String := "us-"
def metaTag : String := "mt-"

/-- The mode field of a Channel: "topic" or "service". -/
inductive ChannelMode : Type where
  | topic : ChannelMode
  | service : ChannelMode
  deriving Repr, DecidableEq

/-- The fields of a Channel consulted by getChannelName: the human-readable
name, the mode, and the optional meta flag (meta?: boolean). -/
structure ChannelDesc : Type where
  name : String
  mode : ChannelMode
  meta : Option Bool
  deriving Repr, DecidableEq

/-- Embedding of BaseClient.getChannelName: the fixed prefix, then the mode
prefix, then the meta-or-user prefix (the source tests channel.meta === true),
then the channel name. -/
def getChannelName (c : ChannelDesc) : String :=
  let topicMode : String :=
    match c.mode with
    | .topic => topicTag
    | .service => serviceTag
  let topicType : String := if c.meta = some true then metaTag else userTag
  chTag ++ topicMode ++ topicType ++ c.name

/-- Whether a channel is treated as a meta channel (channel.meta === true). -/
def isMeta (c : ChannelDesc) : Bool := c.meta = some true

/-! ## The service RPC engine, from BaseClient.ts (req and
onReceiveServiceResponseMessage) -/

/-- Insert a key into a key set the way Map.set does on a map modelled by its
key set: an existing key is overwritten in place, a new one is appended. -/
def addKey (l : List String) (id : String) : List String :=
  if l.contains id then l else l ++ [id]

/-- Remove a key the way Map.delete does. -/
def removeKey (l : List String) (id : String) : List String :=
  l.erase id

/-- The slice of BaseClient state owned by the service RPC engine, observed at
the event level.  serviceResolvers and serviceRejectors are the key sets of
the two maps of the same names (their values are closures, which the model
replays in svcStep exactly as the source defines them).  timers is the set of
correlation ids with an armed timeout.  settled records which request futures
have been settled (a JavaScript promise settles at most once, so settling is
idempotent), and warned records the ids dropped by the
"No resolver or rejector for service id" warning. -/
structure SvcState : Type where
  serviceResolvers : List String
  serviceRejectors : List String
  timers : List String
  settled : List String
  warned : List String
  deriving Repr, DecidableEq

/-- The initial RPC engine state of a fresh BaseClient. -/
def svcInit : SvcState := ⟨[], [], [], [], []⟩

/-- The events that reach the RPC engine state, in the single-threaded event
model: req registering a pending call, the timeout timer of a call firing,
and a response message for a correlation id arriving (with the two schema
validation verdicts the handler computes). -/
inductive SvcOp : Type where
  | register (id : String)
  | timeoutFire (id : String)
  | response (id : String) (validMsg : Bool) (validData : Bool)
  deriving Repr, DecidableEq

/-- One event step of the RPC engine.

register: the promise executor in req arms a timer with setTimeout and stores
a resolver and a rejector under the fresh correlation id.

timeoutFire: the setTimeout callback in req is only
reject(new Error("Service timed out")) — it settles the future and touches
neither serviceResolvers nor serviceRejectors; the timer itself is spent.

response: onReceiveServiceResponseMessage first reads both maps, and when the
resolver or the rejector is missing it only warns; otherwise it runs the
stored rejector (for an invalid response message or invalid response data) or
the stored resolver, and both closures, as defined in req, clear the timeout,
delete the id from both maps and settle the future. -/
def svcStep (s : SvcState) : SvcOp → SvcState
  | .register id =>
      { s with serviceResolvers := addKey s.serviceResolvers id,
               serviceRejectors := addKey s.serviceRejectors id,
               timers := addKey s.timers id }
  | .timeoutFire id =>
      { s with timers := removeKey s.timers id,
               settled := addKey s.settled id }
  | .response id _ _ =>
      if s.serviceResolvers.contains id && s.serviceRejectors.contains id then
        { s with serviceResolvers := removeKey s.serviceResolvers id,
                 serviceRejectors := removeKey s.serviceRejectors id,
                 timers := removeKey s.timers id,
                 settled := addKey s.settled id }
      else
        { s with warned := addKey s.warned id }

/-! ## The service message handler, from BaseClient.ts
(onReceiveServiceMessage) -/

/-- The possible observable outcomes of invoking a registered service handler
on a request: returning a plain value, throwing synchronously, or returning a
promise that later resolves or rejects.  A promise settles exactly once, so
the four outcomes are mutually exclusive. -/
inductive HandlerOutcome : Type where
  | syncReturn (v : Option JValue)
  | syncThrow
  | asyncResolve (v : Option JValue)
  | asyncReject
  deriving Repr

/-- A response message sent back for one request: a regular response (sent by
sendServiceResponseMessage, with optional response data) or an error response
(sent by sendServiceErrorMessage). -/
inductive SvcResponse : Type where
  | data (v : Option JValue)
  | err
  deriving Repr

/-- Embedding of BaseClient.onReceiveServiceMessage as the list of response
messages it sends for one incoming request, following the source's control
flow: no registered handler sends one "No service handler" error; otherwise
the handler runs under a try/catch with the single-assignment sentResponse
flag — a synchronous throw marks the flag, sends one error response and
returns; a plain result, or the settlement of a returned promise, checks the
flag before sending its one response. -/
def onReceiveServiceMessageR (handler : Option HandlerOutcome) : List SvcResponse :=
  match handler with
  | none => [.err]
  | some outcome =>
      Id.run do
        let mut sentResponse := false
        let mut out : List SvcResponse := []
        match outcome with
        | .syncThrow =>
            sentResponse := true
            out := out ++ [.err]
            return out
        | .syncReturn v =>
            if sentResponse then return out
            sentResponse := true
            out := out ++ [.data v]
            return out
        | .asyncResolve v =>
            if sentResponse then return out
            sentResponse := true
            out := out ++ [.data v]
            return out
        | .asyncReject =>
            if sentResponse then return out
            sentResponse := true
            out := out ++ [.err]
            return out

/-! ## The topic synchronization state machine, from BaseClient.ts -/

/-- The per-wire-channel-name slice of BaseClient state driven by the topic
machine.  A JavaScript Map can store undefined as a value, and
mergeDiff can produce undefined, so topicMap values are value-or-undefined.
lastValidDiff models lastValidDiffMap (the diff and source of the last
notified update). -/
structure TopicState : Type where
  topicMap : List (String × Option JValue)
  topicsValid : List (String × Bool)
  lastValidDiff : List (String × DiffRes × String)
  deriving Repr

/-- Embedding of BaseClient.onReceiveTopicMessage for one topic message
carrying the diff d from source src on wire channel ch, given the channel's
schema verdict function (channel.schema.safeParse(...).success).  The outer
none models the two exceptions (channel not initialized, or mergeDiff
throwing).  The returned list holds the value passed to the subscriber
handlers by updateTopic — empty when no handler is invoked. -/
def onReceiveTopicMessageR (schema : Option JValue → Bool) (s : TopicState)
    (ch : String) (d : DiffRes) (src : String) :
    Option (TopicState × List (Option JValue)) :=
  match lookupKV ch s.topicMap with
  | none => none
  | some currentTopic =>
      match mergeDiff currentTopic d with
      | none => none
      | some newTopic =>
          let previouslyValid := (lookupKV ch s.topicsValid).getD false
          let valid := schema newTopic
          if d.modified.isSome || d.deleted.isSome then
            if previouslyValid = false then
              if valid then
                some ({ s with topicsValid := setKV ch true s.topicsValid,
                               topicMap := setKV ch newTopic s.topicMap,
                               lastValidDiff := setKV ch (d, src) s.lastValidDiff },
                      [newTopic])
              else
                some ({ s with topicMap := setKV ch newTopic s.topicMap }, [])
            else
              if valid then
                some ({ s with topicMap := setKV ch newTopic s.topicMap,
                               lastValidDiff := setKV ch (d, src) s.lastValidDiff },
                      [newTopic])
              else
                some (s, [])
          else
            some (s, [])

/-- Embedding of BaseClient.getTopicSync at the wire-channel level: a missing
entry and a stored undefined both read back as undefined from the Map and
throw "not found"; an entry whose validity flag is not true throws
"Topic is not valid"; otherwise the current value is returned. -/
def getTopicSyncR (s : TopicState) (ch : String) : Except String JValue :=
  match lookupKV ch s.topicMap with
  | none => .error "Topic not found"
  | some none => .error "Topic not found"
  | some (some v) =>
      if (lookupKV ch s.topicsValid).getD false then .ok v
      else .error "Topic is not valid"

/-- The state effect of initTopicChannel: a channel not yet known gets an
empty-object topic value (the schema registration, raw listener and the
request-full-topic broadcast carry no topic state). -/
def initTopicChannelR (s : TopicState) (ch : String) : TopicState :=
  match lookupKV ch s.topicMap with
  | some _ => s
  | none => { s with topicMap := setKV ch (some (.obj [])) s.topicMap }

/-- The operations of BaseClient that can touch a topic channel's state,
at the event level: receiving a topic message, publishing, the state effect
of subscribing, and receiving a request-full-topic message. -/
inductive TopicOp : Type where
  | receiveTopicMessage (ch : String) (d : DiffRes) (src : String)
  | publish (ch : String) (data : JValue) (updateSelf publishDeletes : Bool) (src : String)
  | subscribeInit (ch : String)
  | receiveRequestFullTopic (ch : String)

/-- Embedding of BaseClient.pub: after initTopicChannel, the current value is
read (a stored undefined throws "Channel not found"); the diff of the current
value against the published data is computed (never throwing, as both sides
are present); with publishDeletes false the deleted field is stripped; an
empty diff does nothing; otherwise the merged value is stored directly —
without any validity check — the diff is broadcast, and with updateSelf the
same message is fed through onReceiveTopicMessage. -/
def pubR (schema : Option JValue → Bool) (s : TopicState) (ch : String)
    (data : JValue) (updateSelf publishDeletes : Bool) (src : String) :
    Option (TopicState × List (Option JValue)) :=
  let s1 := initTopicChannelR s ch
  match lookupKV ch s1.topicMap with
  | none => none
  | some none => none
  | some (some currentTopic) =>
      match diffV (some currentTopic) (some data) with
      | none => none
      | some d0 =>
          let d := if publishDeletes then d0 else ⟨d0.modified, none⟩
          if d.modified.isSome || d.deleted.isSome then
            match mergeDiff (some currentTopic) d with
            | none => none
            | some newTopic =>
                let s2 := { s1 with topicMap := setKV ch newTopic s1.topicMap }
                if updateSelf then onReceiveTopicMessageR schema s2 ch d src
                else some (s2, [])
          else
            some (s1, [])

/-- One BaseClient operation on the topic state.  subscribeInit carries the
state effect of sub (initTopicChannel; handler registration and the optional
immediate callback do not change this state), and receiveRequestFullTopic
only sends (sendFullTopic reads but never writes). -/
def applyTopicOp (schema : Option JValue → Bool) (s : TopicState) :
    TopicOp → Option (TopicState × List (Option JValue))
  | .receiveTopicMessage ch d src => onReceiveTopicMessageR schema s ch d src
  | .publish ch data updateSelf publishDeletes src =>
      pubR schema s ch data updateSelf publishDeletes src
  | .subscribeInit ch => some (initTopicChannelR s ch, [])
  | .receiveRequestFullTopic _ => some (s, [])

/-! ## The identity handshake of the relay layer, from Server.ts -/

/-- Remove a key the way Map.delete does on an association list. -/
def eraseKV {α : Type} (k : String) : List (String × α) → List (String × α)
  | [] => []
  | (k0, v) :: rest => if k0 = k then rest else (k0, v) :: eraseKV k rest

/-- The binding state of the TopicServer relay: the two directions of the
socket-to-identity routing table, plus the record of sockets the server has
forcibly disconnected. -/
structure ServerState : Type where
  socketToClientID : List (String × String)
  clientToSocketID : List (String × String)
  disconnectedSockets : List String
  deriving Repr, DecidableEq

/-- Embedding of the "id" handler registered in the TopicServer constructor,
for a message announcing clientId from the connection socketId: an identity
that already has a binding gets the announcing socket disconnected and
nothing else changes; otherwise both directions of the binding are stored. -/
def onIdMessage (s : ServerState) (clientId socketId : String) : ServerState :=
  if (lookupKV clientId s.clientToSocketID).isSome then
    { s with disconnectedSockets := s.disconnectedSockets ++ [socketId] }
  else
    { s with clientToSocketID := setKV clientId socketId s.clientToSocketID,
             socketToClientID := setKV socketId clientId s.socketToClientID }

/-- Embedding of the disconnect handler registered in the TopicServer
constructor: a bound socket's two binding directions are removed (the meta
registry update it also triggers carries no binding state); an unbound socket
only logs a warning. -/
def onDisconnect (s : ServerState) (socketId : String) : ServerState :=
  match lookupKV socketId s.socketToClientID with
  | some clientID =>
      { s with clientToSocketID := eraseKV clientID s.clientToSocketID,
               socketToClientID := eraseKV socketId s.socketToClientID }
  | none => s

/-! ## Supporting lemmas for the claim theorems -/

theorem string_prefix_cancel {p q n m : String} (hl : p.length = q.length)
    (h : p ++ n = q ++ m) : p = q ∧ n = m := by
  have hd : p.data ++ n.data = q.data ++ m.data := congrArg String.data h
  have hlen : p.data.length = q.data.length := hl
  obtain ⟨h1, h2⟩ := List.append_inj hd hlen
  obtain ⟨pd⟩ := p
  obtain ⟨qd⟩ := q
  obtain ⟨nd⟩ := n
  obtain ⟨md⟩ := m
  simp_all

theorem valueType_primitive_of_ne_object {o : JValue}
    (h : valueType (some o) ≠ .object) : valueType (some o) = .primitive := by
  cases o <;> first
    | rfl
    | exact absurd rfl h

/-- On a classification mismatch with a present old value, recursiveMerge
keeps the old value (it does not replace it with the merge object). -/
theorem recursiveMergeV_mismatch {o m : JValue}
    (h : valueType (some o) ≠ valueType (some m)) : recursiveMergeV (some o) m = o := by
  by_cases ho : valueType (some o) = .object
  · obtain ⟨os, rfl⟩ := exists_obj_of_valueType ho
    rcases m with s | i | b | _ | vs | ms <;>
      first
        | (simp [recursiveMergeV, valueType]; done)
        | simp [valueType] at h
  · by_cases hm : valueType (some m) = .object
    · obtain ⟨ms, rfl⟩ := exists_obj_of_valueType hm
      rcases o with s | i | b | _ | vs | os <;>
        first
          | (simp [recursiveMergeV, valueType]; done)
          | simp [valueType] at ho
    · exact absurd ((valueType_primitive_of_ne_object ho).trans
        (valueType_primitive_of_ne_object hm).symm) h

/-- The object-against-object case of recursiveMerge recurses key by key. -/
theorem recursiveMergeV_obj (os ms : List (String × JValue)) :
    recursiveMergeV (some (.obj os)) (.obj ms) = .obj (mergeEntries os os ms) := by
  rw [recursiveMergeV]

theorem lookupKV_setKV_true {l : List (String × Bool)} {ch0 ch : String}
    (h : lookupKV ch0 l = some true) : lookupKV ch0 (setKV ch true l) = some true := by
  by_cases he : ch = ch0
  · subst he
    rw [lookupKV_setKV_self]
  · rw [lookupKV_setKV_ne (fun hh => he hh.symm)]
    exact h

/-- Receiving a topic message either leaves the validity map unchanged or
sets the received channel's flag to true. -/
theorem receive_topicsValid_cases {schema : Option JValue → Bool} {s : TopicState}
    {ch : String} {d : DiffRes} {src : String} {s2 : TopicState}
    {notifs : List (Option JValue)}
    (h : onReceiveTopicMessageR schema s ch d src = some (s2, notifs)) :
    s2.topicsValid = s.topicsValid ∨ s2.topicsValid = setKV ch true s.topicsValid := by
  rw [onReceiveTopicMessageR] at h
  dsimp only at h
  repeat' split at h
  all_goals
    first
      | exact Option.noConfusion h
      | (simp only [Option.some.injEq, Prod.mk.injEq] at h
         rw [← h.1]
         exact Or.inl rfl)
      | (simp only [Option.some.injEq, Prod.mk.injEq] at h
         rw [← h.1]
         exact Or.inr rfl)

theorem initTopicChannelR_topicsValid (s : TopicState) (ch : String) :
    (initTopicChannelR s ch).topicsValid = s.topicsValid := by
  rw [initTopicChannelR]
  split <;> rfl

/-- Publishing either leaves the validity map unchanged or sets the published
channel's flag to true. -/
theorem pub_topicsValid_cases {schema : Option JValue → Bool} {s : TopicState}
    {ch : String} {data : JValue} {updateSelf publishDeletes : Bool} {src : String}
    {s2 : TopicState} {notifs : List (Option JValue)}
    (h : pubR schema s ch data updateSelf publishDeletes src = some (s2, notifs)) :
    s2.topicsValid = s.topicsValid ∨ s2.topicsValid = setKV ch true s.topicsValid := by
  rw [pubR] at h
  dsimp only at h
  repeat' split at h
  all_goals
    first
      | exact Option.noConfusion h
      | (simp only [Option.some.injEq, Prod.mk.injEq] at h
         rw [← h.1]
         exact Or.inl (initTopicChannelR_topicsValid s ch))
      | (rcases receive_topicsValid_cases h with h2 | h2 <;>
          first
            | (rw [h2]
               exact Or.inl (initTopicChannelR_topicsValid s ch))
            | (rw [h2, initTopicChannelR_topicsValid s ch]
               exact Or.inr rfl))

theorem addKey_contains (l : List String) (id : String) :
    (addKey l id).contains id = true := by
  rw [addKey]
  split
  · assumption
  · simp

/-- The key sets of the resolver and rejector maps evolve identically under
every RPC engine event. -/
theorem svcStep_resolver_rejector {s : SvcState}
    (h : s.serviceResolvers = s.serviceRejectors) (op : SvcOp) :
    (svcStep s op).serviceResolvers = (svcStep s op).serviceRejectors := by
  cases op with
  | register id => simp [svcStep, h]
  | timeoutFire id => simpa [svcStep] using h
  | response id vm vd =>
      rw [svcStep]
      split <;> simp [removeKey, h]

theorem svcRun_resolver_rejector : ∀ (ops : List SvcOp) (s : SvcState),
    s.serviceResolvers = s.serviceRejectors →
    (ops.foldl svcStep s).serviceResolvers = (ops.foldl svcStep s).serviceRejectors := by
  intro ops
  induction ops with
  | nil => intro s h; exact h
  | cons op rest ih =>
      intro s h
      rw [List.foldl_cons]
      exact ih _ (svcStep_resolver_rejector h op)

/-! ## The claims -/

/-- C1 (counterexample to the claim as stated): the round trip fails on the
pair A = an empty mapping, B = the number 0.  diff produces
modified = 0, but merging that diff back into A keeps A, because
recursiveMerge returns the old value on a classification mismatch; the result
is not deep-equal to B. -/
theorem claim_C1_counterexample :
    diff (.obj []) (.num 0) = some ⟨some (.num 0), none⟩ ∧
    mergeDiff (some (.obj [])) ⟨some (.num 0), none⟩ = some (some (.obj [])) ∧
    jeq (.obj []) (.num 0) = false := by
  refine ⟨?_, ?_, ?_⟩
  · simp [diff, diffV, valueType]
  · simp [mergeDiff, recursiveDelete, recursiveMerge, recursiveMergeV, valueType]
  · simp [jeq]

/-- C1 (amended): for well-formed values A and B that are kind-compatible —
nowhere on a shared path does a mapping on one side face a non-mapping on the
other — diff never throws and mergeDiff(A, diff(A,B)) is deep-equal to B. -/
theorem claim_C1_roundTrip {a b : JValue} (hwa : wfJ a = true) (hwb : wfJ b = true)
    (hcompat : compat a b = true) :
    ∃ d, diff a b = some d ∧
      ∃ c, mergeDiff (some a) d = some (some c) ∧ jeq c b = true :=
  roundTrip hwa hwb hcompat

/-- C1 witness: the amended round trip at A = mapping a to "1" and b to 2,
B = mapping a to "2" and b to 2. -/
theorem claim_C1_witness :
    wfJ (.obj [("a", .str "1"), ("b", .num 2)]) = true ∧
    wfJ (.obj [("a", .str "2"), ("b", .num 2)]) = true ∧
    compat (.obj [("a", .str "1"), ("b", .num 2)]) (.obj [("a", .str "2"), ("b", .num 2)]) = true ∧
    ∃ d, diff (.obj [("a", .str "1"), ("b", .num 2)]) (.obj [("a", .str "2"), ("b", .num 2)]) = some d ∧
      ∃ c, mergeDiff (some (.obj [("a", .str "1"), ("b", .num 2)])) d = some (some c) ∧
        jeq c (.obj [("a", .str "2"), ("b", .num 2)]) = true :=
  ⟨by simp [wfJ, wfEntries, nodupKeys, keysOf],
   by simp [wfJ, wfEntries, nodupKeys, keysOf],
   by simp [compat, compatEntries, lookupKV],
   claim_C1_roundTrip
     (by simp [wfJ, wfEntries, nodupKeys, keysOf])
     (by simp [wfJ, wfEntries, nodupKeys, keysOf])
     (by simp [compat, compatEntries, lookupKV])⟩

/-- C2 (counterexample to the claim as stated): merging a modified subtree
whose kind mismatches the existing value does not replace the existing value.
With old = 5 and d.modified = an empty mapping, the claim predicts the empty
mapping; the code returns 5. -/
theorem claim_C2_counterexample :
    mergeDiff (some (.num 5)) ⟨some (.obj []), none⟩ = some (some (.num 5)) ∧
    jeq (.num 5) (.obj []) = false := by
  refine ⟨?_, ?_⟩
  · simp [mergeDiff, recursiveDelete, recursiveMerge, recursiveMergeV, valueType]
  · simp [jeq]

/-- C2 (amended): mergeDiff applies the deletion tree first and then overlays
modified; over the overlay, matching mapping kinds recurse key by key (each
key of modified maps to the recursive merge against the old value at that
key, and old keys absent from modified are kept); a primitive modified
subtree over a present primitive replaces it; a modified subtree whose kind
mismatches a present existing value leaves the existing value unchanged
(rather than replacing it); and where the existing value is absent the
modified subtree is inserted. -/
theorem claim_C2_mergeDiff :
    (∀ (oldValue : Option JValue) (d : DiffRes),
      mergeDiff oldValue d =
        (recursiveDelete oldValue d.deleted).map
          (fun del => recursiveMerge del d.modified)) ∧
    (∀ (os ms : List (String × JValue)), nodupKeys (keysOf ms) = true →
      recursiveMergeV (some (.obj os)) (.obj ms) = .obj (mergeEntries os os ms) ∧
      ∀ k, lookupKV k (mergeEntries os os ms) =
        match lookupKV k ms with
        | some v => some (recursiveMergeV (lookupKV k os) v)
        | none => lookupKV k os) ∧
    (∀ (o n : JValue), valueType (some o) = .primitive →
      valueType (some n) = .primitive → recursiveMergeV (some o) n = n) ∧
    (∀ (o n : JValue), valueType (some o) ≠ valueType (some n) →
      recursiveMergeV (some o) n = o) ∧
    (∀ (n : JValue), recursiveMergeV none n = n) :=
  ⟨fun _ _ => rfl,
   fun os ms h => ⟨recursiveMergeV_obj os ms, fun k => lookupKV_mergeEntries os ms os h k⟩,
   fun _ _ ho hn => recursiveMergeV_prim ho hn,
   fun _ _ h => recursiveMergeV_mismatch h,
   fun n => by rw [recursiveMergeV]⟩

/-- C2 witness: the amended behaviour evaluated at concrete inputs — the
key-by-key overlay for a one-key modified mapping over an empty old mapping,
primitive replacement, and the kept old value on a kind mismatch. -/
theorem claim_C2_witness :
    nodupKeys (keysOf [("a", JValue.num 3)]) = true ∧
    lookupKV "a" (mergeEntries [] [] [("a", JValue.num 3)]) =
      some (recursiveMergeV (lookupKV "a" ([] : List (String × JValue))) (JValue.num 3)) ∧
    recursiveMergeV (some (.num 5)) (.num 7) = .num 7 ∧
    recursiveMergeV (some (.num 5)) (.obj []) = .num 5 := by
  refine ⟨by simp [nodupKeys, keysOf], ?_, ?_, ?_⟩
  · have h := (claim_C2_mergeDiff.2.1 [] [("a", JValue.num 3)]
      (by simp [nodupKeys, keysOf])).2 "a"
    simpa [lookupKV] using h
  · exact claim_C2_mergeDiff.2.2.1 (.num 5) (.num 7) rfl rfl
  · exact claim_C2_mergeDiff.2.2.2.1 (.num 5) (.obj []) (by simp [valueType])

/-- C3 (counterexample to the claim as stated): after registering pending
call r1 and letting its timeout fire first, the resolver entry is still
registered (the claim says it is removed), and a late response then finds the
entry and consumes it without any warning (the claim says it is dropped with
a warning). -/
theorem claim_C3_counterexample :
    (svcStep (svcStep svcInit (.register "r1")) (.timeoutFire "r1")).serviceResolvers = ["r1"] ∧
    (svcStep (svcStep svcInit (.register "r1")) (.timeoutFire "r1")).settled = ["r1"] ∧
    (svcStep (svcStep (svcStep svcInit (.register "r1")) (.timeoutFire "r1"))
      (.response "r1" true true)).serviceResolvers = [] ∧
    (svcStep (svcStep (svcStep svcInit (.register "r1")) (.timeoutFire "r1"))
      (.response "r1" true true)).warned = [] := by
  refine ⟨rfl, rfl, ?_, ?_⟩ <;> rfl

/-- C3 (amended): when the timeout fires first, the future is rejected (the
call settles) and the timer is spent, but the pending-call entry is not
removed: both the resolver and the rejector stay registered.  A response
arriving after the timeout therefore still finds the entry; it removes both
halves and runs the stored resolver or rejector — a no-op on the already
settled future — and emits no warning.  Only a response whose correlation id
has no registered entry is dropped with the warning. -/
theorem claim_C3_pendingCall (s : SvcState) (id : String)
    (hres : s.serviceResolvers.contains id = true)
    (hrej : s.serviceRejectors.contains id = true) :
    (svcStep s (.timeoutFire id)).serviceResolvers = s.serviceResolvers ∧
    (svcStep s (.timeoutFire id)).serviceRejectors = s.serviceRejectors ∧
    (svcStep s (.timeoutFire id)).settled.contains id = true ∧
    ∀ validMsg validData,
      (svcStep (svcStep s (.timeoutFire id))
        (.response id validMsg validData)).serviceResolvers = removeKey s.serviceResolvers id ∧
      (svcStep (svcStep s (.timeoutFire id))
        (.response id validMsg validData)).serviceRejectors = removeKey s.serviceRejectors id ∧
      (svcStep (svcStep s (.timeoutFire id))
        (.response id validMsg validData)).warned = s.warned := by
  refine ⟨rfl, rfl, addKey_contains _ _, ?_⟩
  intro validMsg validData
  simp only [svcStep]
  rw [hres, hrej]
  simp

/-- C3 witness: the amended behaviour after registering pending call "a". -/
theorem claim_C3_witness :
    (svcStep svcInit (.register "a")).serviceResolvers.contains "a" = true ∧
    (svcStep (svcStep svcInit (.register "a")) (.timeoutFire "a")).serviceResolvers =
      (svcStep svcInit (.register "a")).serviceResolvers ∧
    (svcStep (svcStep svcInit (.register "a")) (.timeoutFire "a")).settled.contains "a" = true :=
  ⟨rfl,
   (claim_C3_pendingCall (svcStep svcInit (.register "a")) "a" rfl rfl).1,
   (claim_C3_pendingCall (svcStep svcInit (.register "a")) "a" rfl rfl).2.2.1⟩

/-- C4: every request addressed to the process produces exactly one response
message, whether there is no handler, the handler returns synchronously,
throws synchronously, or returns a promise that later resolves or rejects;
in particular a synchronous throw sends exactly the one error response and
never both an error response and a regular response. -/
theorem claim_C4_singleResponse :
    (∀ handler, (onReceiveServiceMessageR handler).length = 1) ∧
    onReceiveServiceMessageR (some .syncThrow) = [SvcResponse.err] := by
  refine ⟨?_, rfl⟩
  intro handler
  match handler with
  | none => rfl
  | some (.syncReturn v) => rfl
  | some .syncThrow => rfl
  | some (.asyncResolve v) => rfl
  | some .asyncReject => rfl

/-- C5: on a channel whose validity flag is true, an incoming diff whose
merged result fails schema validation changes nothing: the state is returned
unchanged (so the value observable through getTopicSync is unchanged) and no
subscriber handler is invoked. -/
theorem claim_C5_validityStability (schema : Option JValue → Bool) (s : TopicState)
    (ch : String) (d : DiffRes) (src : String) (cur newv : Option JValue)
    (hvalid : lookupKV ch s.topicsValid = some true)
    (hcur : lookupKV ch s.topicMap = some cur)
    (hmerge : mergeDiff cur d = some newv)
    (hinvalid : schema newv = false) :
    onReceiveTopicMessageR schema s ch d src = some (s, []) ∧
    ∀ s2 notifs, onReceiveTopicMessageR schema s ch d src = some (s2, notifs) →
      getTopicSyncR s2 ch = getTopicSyncR s ch ∧ notifs = [] := by
  have h1 : onReceiveTopicMessageR schema s ch d src = some (s, []) := by
    rw [onReceiveTopicMessageR, hcur]
    dsimp only
    rw [hmerge]
    dsimp only
    rw [hvalid]
    dsimp only [Option.getD]
    rw [hinvalid]
    simp
  refine ⟨h1, ?_⟩
  intro s2 notifs h2
  rw [h1] at h2
  simp only [Option.some.injEq, Prod.mk.injEq] at h2
  rw [← h2.1, ← h2.2]
  exact ⟨rfl, rfl⟩

/-- C5 witness: a channel c that is valid with value the empty mapping, an
always-failing schema, and a diff whose merge result fails validation. -/
theorem claim_C5_witness :
    lookupKV "c" (⟨[("c", some (.obj []))], [("c", true)], []⟩ : TopicState).topicsValid = some true ∧
    onReceiveTopicMessageR (fun _ => false)
      ⟨[("c", some (.obj []))], [("c", true)], []⟩ "c" ⟨some (.num 1), none⟩ "x" =
      some (⟨[("c", some (.obj []))], [("c", true)], []⟩, []) :=
  ⟨rfl,
   (claim_C5_validityStability (fun _ => false)
     ⟨[("c", some (.obj []))], [("c", true)], []⟩ "c" ⟨some (.num 1), none⟩ "x"
     (some (.obj [])) (some (.obj []))
     rfl rfl
     (by simp [mergeDiff, recursiveDelete, recursiveMerge, recursiveMergeV, valueType])
     rfl).1⟩

/-- C6: diffing a well-formed value against itself yields a DiffResult with
both the modified and the deleted field absent. -/
theorem claim_C6_diffIdempotent (a : JValue) (h : wfJ a = true) :
    diff a a = some ⟨none, none⟩ := by
  rw [diff]
  exact diffV_self h

/-- C6 witness: idempotence at the mapping sending a to "1". -/
theorem claim_C6_witness :
    wfJ (.obj [("a", .str "1")]) = true ∧
    diff (.obj [("a", .str "1")]) (.obj [("a", .str "1")]) = some ⟨none, none⟩ :=
  ⟨by simp [wfJ, wfEntries, nodupKeys, keysOf],
   claim_C6_diffIdempotent _ (by simp [wfJ, wfEntries, nodupKeys, keysOf])⟩

/-- C7: wire names collide only for channels that agree on mode (topic or
service), on the effective meta flag (meta === true), and on the
human-readable name; in particular a topic and a service of the same name,
or a meta and a user channel of the same name, get distinct wire names. -/
theorem claim_C7_wireNames (c1 c2 : ChannelDesc)
    (h : getChannelName c1 = getChannelName c2) :
    c1.mode = c2.mode ∧ isMeta c1 = isMeta c2 ∧ c1.name = c2.name := by
  obtain ⟨n1, m1, t1⟩ := c1
  obtain ⟨n2, m2, t2⟩ := c2
  simp only [getChannelName, isMeta]
  simp only [getChannelName] at h
  cases m1 <;> cases m2 <;>
    by_cases hm1 : t1 = some true <;> by_cases hm2 : t2 = some true <;>
      simp only [hm1, hm2, if_pos, if_neg, chTag, topicTag, serviceTag, userTag, metaTag] at h <;>
      simp_all <;>
      first
        | exact (string_prefix_cancel rfl h).2
        | (obtain ⟨hp, _⟩ := string_prefix_cancel (by decide) h
           exact absurd hp (by decide))

/-- C7 witness: applying the injectivity theorem to the user topic channel
named "t" against itself. -/
theorem claim_C7_witness :
    (⟨"t", .topic, none⟩ : ChannelDesc).mode = (⟨"t", .topic, none⟩ : ChannelDesc).mode ∧
    isMeta ⟨"t", .topic, none⟩ = isMeta ⟨"t", .topic, none⟩ ∧
    (⟨"t", .topic, none⟩ : ChannelDesc).name = (⟨"t", .topic, none⟩ : ChannelDesc).name :=
  claim_C7_wireNames ⟨"t", .topic, none⟩ ⟨"t", .topic, none⟩ rfl

/-- C8: when a connection announces an identity that is already bound, the
announcing socket is forcibly disconnected and both directions of the routing
table are left unchanged, so the existing binding — and with it the
at-most-one-connection-per-identity invariant — is preserved. -/
theorem claim_C8_duplicateIdentity (s : ServerState) (c sock sock0 : String)
    (h : lookupKV c s.clientToSocketID = some sock0) :
    (onIdMessage s c sock).clientToSocketID = s.clientToSocketID ∧
    (onIdMessage s c sock).socketToClientID = s.socketToClientID ∧
    (onIdMessage s c sock).disconnectedSockets = s.disconnectedSockets ++ [sock] := by
  rw [onIdMessage, if_pos (by rw [h]; rfl)]
  exact ⟨rfl, rfl, rfl⟩

/-- C8 witness: a second connection s2 announcing the identity c1 already
bound to socket s1. -/
theorem claim_C8_witness :
    lookupKV "c1" (⟨[("s1", "c1")], [("c1", "s1")], []⟩ : ServerState).clientToSocketID =
      some "s1" ∧
    (onIdMessage ⟨[("s1", "c1")], [("c1", "s1")], []⟩ "c1" "s2").clientToSocketID =
      [("c1", "s1")] ∧
    (onIdMessage ⟨[("s1", "c1")], [("c1", "s1")], []⟩ "c1" "s2").disconnectedSockets = ["s2"] :=
  ⟨rfl,
   (claim_C8_duplicateIdentity ⟨[("s1", "c1")], [("c1", "s1")], []⟩ "c1" "s2" "s1" rfl).1,
   (claim_C8_duplicateIdentity ⟨[("s1", "c1")], [("c1", "s1")], []⟩ "c1" "s2" "s1" rfl).2.2⟩

/-- C9: a topic channel's validity flag never regresses: no completed
BaseClient operation — receiving a diff, publishing, the state effect of
subscribing, or handling a request-full-topic message — takes topicsValid for
any channel from true back to false. -/
theorem claim_C9_validityMonotone (schema : Option JValue → Bool) (op : TopicOp)
    (s : TopicState) (ch0 : String) (s2 : TopicState) (notifs : List (Option JValue))
    (hvalid : lookupKV ch0 s.topicsValid = some true)
    (h : applyTopicOp schema s op = some (s2, notifs)) :
    lookupKV ch0 s2.topicsValid = some true := by
  cases op with
  | receiveTopicMessage ch d src =>
      rcases receive_topicsValid_cases h with h2 | h2
      · rw [h2]; exact hvalid
      · rw [h2]; exact lookupKV_setKV_true hvalid
  | publish ch data updateSelf publishDeletes src =>
      rcases pub_topicsValid_cases h with h2 | h2
      · rw [h2]; exact hvalid
      · rw [h2]; exact lookupKV_setKV_true hvalid
  | subscribeInit ch =>
      rw [applyTopicOp] at h
      simp only [Option.some.injEq, Prod.mk.injEq] at h
      rw [← h.1, initTopicChannelR_topicsValid]
      exact hvalid
  | receiveRequestFullTopic ch =>
      rw [applyTopicOp] at h
      simp only [Option.some.injEq, Prod.mk.injEq] at h
      rw [← h.1]
      exact hvalid

/-- C9 witness: a request-full-topic message on a state where channel c is
valid. -/
theorem claim_C9_witness :
    lookupKV "c" (⟨[("c", some (.obj []))], [("c", true)], []⟩ : TopicState).topicsValid =
      some true ∧
    lookupKV "c" (⟨[("c", some (.obj []))], [("c", true)], []⟩ : TopicState).topicsValid =
      some true :=
  ⟨rfl,
   claim_C9_validityMonotone (fun _ => false) (.receiveRequestFullTopic "x")
     ⟨[("c", some (.obj []))], [("c", true)], []⟩ "c"
     ⟨[("c", some (.obj []))], [("c", true)], []⟩ [] rfl rfl⟩

/-- C10: after any sequence of RPC engine events from the initial state, the
serviceResolvers and serviceRejectors maps hold exactly the same correlation
ids: req registers both together and every settlement path deletes both
together. -/
theorem claim_C10_resolverRejectorSync (ops : List SvcOp) :
    (ops.foldl svcStep svcInit).serviceResolvers =
      (ops.foldl svcStep svcInit).serviceRejectors :=
  svcRun_resolver_rejector ops svcInit rfl

end WebTopics
